import Mathlib

/-!
Verification development for the ayah-alignment engine of the
andalus-taraweeh repository (scripts/ai_pipeline/quran.py and
scripts/ai_pipeline/pipeline.py).

The Python code is shallowly embedded: strings become lists of unicode
characters, floats become rationals, ints become integers, `None`-able
values become options.  The third-party fuzzy-string primitives
(rapidfuzz token_set_ratio and partial_ratio) are not repository code;
where a definition needs them they are taken as function parameters, so
theorems quantify over every possible scorer and counterexamples
instantiate them with concrete functions on the code paths that never
consult them.
-/

namespace Taraweeh

/-- Python `round(x)`: round half to even, on a rational input. -/
def pyRound (q : ℚ) : Int :=
  let f : Int := ⌊q⌋
  let r : ℚ := q - (f : ℚ)
  if r < 1/2 then f
  else if 1/2 < r then f + 1
  else if f % 2 = 0 then f else f + 1

/-- Python `int(x)` on a float: truncation toward zero. -/
def pyTrunc (q : ℚ) : Int := if 0 ≤ q then ⌊q⌋ else -⌊-q⌋

/-- Python `round(x, 3)`: round to three decimal places (half to even). -/
def roundQ3 (q : ℚ) : ℚ := (pyRound (q * 1000) : ℚ) / 1000

/-! ## Text normalizer (normalize_arabic and its helpers) -/

/-- Membership in the ARABIC_DIACRITICS regex character class
    0610-061A, 064B-065F, 0670, 06D6-06ED. -/
def isArabicDiacritic (c : Char) : Bool :=
  let n := c.toNat
  (decide (0x610 ≤ n) && decide (n ≤ 0x61A)) ||
  (decide (0x64B ≤ n) && decide (n ≤ 0x65F)) ||
  (n == 0x670) ||
  (decide (0x6D6 ≤ n) && decide (n ≤ 0x6ED))

/-- The Arabic letter ranges kept by the ARABIC_PUNCT regex:
    0621-063A and 0641-064A. -/
def isArabicLetter (c : Char) : Bool :=
  let n := c.toNat
  (decide (0x621 ≤ n) && decide (n ≤ 0x63A)) ||
  (decide (0x641 ≤ n) && decide (n ≤ 0x64A))

/-- The whitespace class matched by Python regex \s on str and by
    str.split / str.strip. -/
def isPySpace (c : Char) : Bool :=
  let n := c.toNat
  (decide (9 ≤ n) && decide (n ≤ 13)) ||
  (decide (28 ≤ n) && decide (n ≤ 31)) ||
  (n == 32) || (n == 0x85) || (n == 0xA0) || (n == 0x1680) ||
  (decide (0x2000 ≤ n) && decide (n ≤ 0x200A)) ||
  (n == 0x2028) || (n == 0x2029) || (n == 0x202F) || (n == 0x205F) ||
  (n == 0x3000)

/-- str.maketrans table ARABIC_CHAR_MAP: hamza variants to alef,
    alef maqsura to ya, ta marbuta to ha, tatweel deleted. -/
def translateChar (c : Char) : List Char :=
  if c = 'أ' ∨ c = 'إ' ∨ c = 'آ' ∨ c = 'ٱ' then ['ا']
  else if c = 'ى' then ['ي']
  else if c = 'ة' then ['ه']
  else if c = 'ـ' then []
  else [c]

/-- One character of `ARABIC_PUNCT.sub(" ", text)`: characters that are
    neither Arabic letters nor whitespace become a space. -/
def punctToSpace (c : Char) : Char :=
  if isArabicLetter c || isPySpace c then c else ' '

/-- One step of Python `text.split()`: `cur` is the current word being
    assembled, in reverse. -/
def splitWsGo : List Char → List Char → List (List Char)
  | cur, [] => if cur = [] then [] else [cur.reverse]
  | cur, c :: cs =>
    if isPySpace c then
      (if cur = [] then splitWsGo [] cs else cur.reverse :: splitWsGo [] cs)
    else splitWsGo (c :: cur) cs

/-- Python `text.split()`: split on whitespace runs, dropping empties. -/
def splitWs (s : List Char) : List (List Char) := splitWsGo [] s

/-- One step of `MULTI_SPACE.sub(" ", text)`: the flag records whether
    the previous character was inside a whitespace run. -/
def collapseWsGo : Bool → List Char → List Char
  | _, [] => []
  | prevWs, c :: cs =>
    if isPySpace c then
      (if prevWs then collapseWsGo true cs else ' ' :: collapseWsGo true cs)
    else c :: collapseWsGo false cs

/-- `MULTI_SPACE.sub(" ", text)`: replace each maximal whitespace run by
    a single space. -/
def collapseWs (s : List Char) : List Char := collapseWsGo false s

/-- Python `text.strip()`: drop leading and trailing whitespace. -/
def stripWs (s : List Char) : List Char :=
  (s.dropWhile isPySpace).rdropWhile isPySpace

/-- Python `" ".join(tokens)`. -/
def joinSp : List (List Char) → List Char
  | [] => []
  | [t] => t
  | t :: ts => t ++ ' ' :: joinSp ts

/-- Tail of the consecutive-duplicate-token collapse loop. -/
def dedupAdjGo (prev : List Char) : List (List Char) → List (List Char)
  | [] => []
  | t :: ts => if t = prev then dedupAdjGo prev ts else t :: dedupAdjGo t ts

/-- The consecutive-duplicate-token collapse in normalize_arabic. -/
def dedupAdj : List (List Char) → List (List Char)
  | [] => []
  | t :: ts => t :: dedupAdjGo t ts

/-- The character-level stages of normalize_arabic: strip diacritics;
    in non-strict mode fold hamza variants via ARABIC_CHAR_MAP and
    remove tatweel; replace non-letter non-space characters by spaces. -/
def normPre (strict : Bool) (text : List Char) : List Char :=
  let t1 := text.filter (fun c => !isArabicDiacritic c)
  let t2 := if strict then t1
            else (t1.flatMap translateChar).filter (fun c => c != 'ـ')
  t2.map punctToSpace

/-- normalize_arabic(text, strict).  Strips diacritics; in non-strict
    mode folds hamza variants and removes tatweel; replaces
    non-letter non-space characters by spaces; collapses whitespace and
    strips; in non-strict mode collapses consecutive identical tokens. -/
def normalizeArabic (strict : Bool) (text : List Char) : List Char :=
  let t4 := stripWs (collapseWs (normPre strict text))
  if !strict && !t4.isEmpty then joinSp (dedupAdj (splitWs t4)) else t4

/-! ## Normalizer idempotence (claim C8) -/

theorem letter_not_space {c : Char} (h : isArabicLetter c = true) :
    isPySpace c = false := by
  rw [Bool.eq_false_iff]
  intro hs
  simp only [isArabicLetter, isPySpace, Bool.or_eq_true, Bool.and_eq_true,
    decide_eq_true_eq, beq_iff_eq] at h hs
  omega

theorem letter_not_diacritic {c : Char} (h : isArabicLetter c = true) :
    isArabicDiacritic c = false := by
  rw [Bool.eq_false_iff]
  intro hs
  simp only [isArabicLetter, isArabicDiacritic, Bool.or_eq_true, Bool.and_eq_true,
    decide_eq_true_eq, beq_iff_eq] at h hs
  omega

theorem translateChar_out {c d : Char} (h : d ∈ translateChar c) :
    translateChar d = [d] := by
  unfold translateChar at h ⊢
  split at h
  · simp only [List.mem_singleton] at h
    subst h; decide
  · split at h
    · simp only [List.mem_singleton] at h
      subst h; decide
    · split at h
      · simp only [List.mem_singleton] at h
        subst h; decide
      · split at h
        · simp at h
        · simp only [List.mem_singleton] at h
          subst h
          simp_all

theorem translateChar_out_ne_tatweel {c d : Char} (h : d ∈ translateChar c) :
    d ≠ 'ـ' := by
  intro he
  have := translateChar_out h
  rw [he] at this
  simp [translateChar] at this

/-- Characters of a flatMap output are again translateChar fixed points. -/
theorem flatMap_id_of {l : List Char} {f : Char → List Char}
    (h : ∀ c ∈ l, f c = [c]) : l.flatMap f = l := by
  induction l with
  | nil => rfl
  | cons c cs ih =>
    simp only [List.flatMap_cons, h c (List.mem_cons_self c cs)]
    rw [ih fun d hd => h d (List.mem_cons_of_mem _ hd)]
    rfl

theorem map_id_of {l : List Char} {f : Char → Char}
    (h : ∀ c ∈ l, f c = c) : l.map f = l := by
  induction l with
  | nil => rfl
  | cons c cs ih =>
    simp only [List.map_cons, h c (List.mem_cons_self c cs)]
    rw [ih fun d hd => h d (List.mem_cons_of_mem _ hd)]

/-- No two adjacent whitespace characters. -/
def NoWsPair (a b : Char) : Prop := ¬(isPySpace a = true ∧ isPySpace b = true)

/-- Canonical whitespace shape of normalizer output: every whitespace
    character is a plain space and no two of them are adjacent. -/
def WsCanon (s : List Char) : Prop :=
  (∀ c ∈ s, isPySpace c = true → c = ' ') ∧ List.Chain' NoWsPair s

theorem chain'_of_suffix {R : Char → Char → Prop} {l l' : List Char}
    (hs : l' <:+ l) (h : List.Chain' R l) : List.Chain' R l' := by
  obtain ⟨t, rfl⟩ := hs
  exact (List.chain'_append.mp h).2.1

theorem chain'_of_prefix {R : Char → Char → Prop} {l l' : List Char}
    (hs : l' <+: l) (h : List.Chain' R l) : List.Chain' R l' := by
  obtain ⟨t, rfl⟩ := hs
  exact (List.chain'_append.mp h).1

theorem wsCanon_tail {c : Char} {cs : List Char} (h : WsCanon (c :: cs)) :
    WsCanon cs :=
  ⟨fun d hd => h.1 d (List.mem_cons_of_mem _ hd), h.2.tail⟩

theorem mem_collapseWsGo : ∀ {s : List Char} (b : Bool) {c : Char},
    c ∈ collapseWsGo b s → c = ' ' ∨ (c ∈ s ∧ isPySpace c = false) := by
  intro s
  induction s with
  | nil => intro b c h; simp [collapseWsGo] at h
  | cons d cs ih =>
    intro b c h
    by_cases hd : isPySpace d = true
    · cases b with
      | true =>
        rw [show collapseWsGo true (d :: cs) = collapseWsGo true cs by
          simp [collapseWsGo, hd]] at h
        rcases ih true h with h1 | ⟨h2, h3⟩
        · exact Or.inl h1
        · exact Or.inr ⟨List.mem_cons_of_mem _ h2, h3⟩
      | false =>
        rw [show collapseWsGo false (d :: cs) = ' ' :: collapseWsGo true cs by
          simp [collapseWsGo, hd]] at h
        rcases List.mem_cons.mp h with rfl | h2
        · exact Or.inl rfl
        · rcases ih true h2 with h1 | ⟨h3, h4⟩
          · exact Or.inl h1
          · exact Or.inr ⟨List.mem_cons_of_mem _ h3, h4⟩
    · rw [show collapseWsGo b (d :: cs) = d :: collapseWsGo false cs by
        simp [collapseWsGo, hd]] at h
      rcases List.mem_cons.mp h with rfl | h2
      · exact Or.inr ⟨List.mem_cons_self _ _, by simpa using hd⟩
      · rcases ih false h2 with h1 | ⟨h3, h4⟩
        · exact Or.inl h1
        · exact Or.inr ⟨List.mem_cons_of_mem _ h3, h4⟩

theorem mem_collapseWs {s : List Char} {c : Char} (h : c ∈ collapseWs s) :
    c = ' ' ∨ (c ∈ s ∧ isPySpace c = false) :=
  mem_collapseWsGo false h

theorem collapseWsGo_chain : ∀ (s : List Char) (b : Bool),
    List.Chain' NoWsPair (collapseWsGo b s) ∧
      (∀ c, (collapseWsGo true s).head? = some c → isPySpace c = false) := by
  intro s
  induction s with
  | nil => intro b; exact ⟨List.chain'_nil, by intro c h; simp [collapseWsGo] at h⟩
  | cons d cs ih =>
    intro b
    by_cases hd : isPySpace d = true
    · have htrue : collapseWsGo true (d :: cs) = collapseWsGo true cs := by
        simp [collapseWsGo, hd]
      refine ⟨?_, ?_⟩
      · cases b with
        | true => rw [htrue]; exact (ih true).1
        | false =>
          rw [show collapseWsGo false (d :: cs) = ' ' :: collapseWsGo true cs by
            simp [collapseWsGo, hd]]
          rw [List.chain'_cons']
          refine ⟨?_, (ih true).1⟩
          intro y hy hp
          rw [(ih true).2 y hy] at hp
          exact absurd hp.2 (by simp)
      · rw [htrue]; exact (ih true).2
    · have hcons : ∀ b₀ : Bool, collapseWsGo b₀ (d :: cs) = d :: collapseWsGo false cs := by
        intro b₀; simp [collapseWsGo, hd]
      refine ⟨?_, ?_⟩
      · rw [hcons b, List.chain'_cons']
        refine ⟨?_, (ih false).1⟩
        intro y _
        exact fun hp => hd hp.1
      · rw [hcons true]
        intro c h
        simp only [List.head?_cons, Option.some.injEq] at h
        subst h
        simpa using hd

theorem collapseWs_wsCanon (s : List Char) : WsCanon (collapseWs s) := by
  refine ⟨?_, (collapseWsGo_chain s false).1⟩
  intro c hc hws
  rcases mem_collapseWs hc with h1 | ⟨_, h2⟩
  · exact h1
  · rw [h2] at hws; cases hws

theorem collapseWsGo_eq_self : ∀ {s : List Char}, WsCanon s →
    collapseWsGo false s = s ∧
      ((∀ c, s.head? = some c → isPySpace c = false) → collapseWsGo true s = s) := by
  intro s
  induction s with
  | nil => intro _; exact ⟨rfl, fun _ => rfl⟩
  | cons d cs ih =>
    intro h
    by_cases hd : isPySpace d = true
    · have hd2 : d = ' ' := h.1 d (List.mem_cons_self _ _) hd
      have hhead : ∀ c, cs.head? = some c → isPySpace c = false := by
        intro c hc
        cases cs with
        | nil => simp at hc
        | cons e es =>
          simp only [List.head?_cons, Option.some.injEq] at hc
          have hch := (List.chain'_cons'.mp h.2).1 e (by simp)
          rw [← hc]
          by_contra hne
          exact hch ⟨hd, by simpa using hne⟩
      have htail := ih (wsCanon_tail h)
      constructor
      · rw [show collapseWsGo false (d :: cs) = ' ' :: collapseWsGo true cs by
          simp [collapseWsGo, hd]]
        rw [htail.2 hhead, hd2]
      · intro hself
        exact absurd (hself d (by simp)) (by simp [hd])
    · have htail := ih (wsCanon_tail h)
      have hcons : ∀ b₀ : Bool, collapseWsGo b₀ (d :: cs) = d :: collapseWsGo false cs := by
        intro b₀; simp [collapseWsGo, hd]
      exact ⟨by rw [hcons false, htail.1], fun _ => by rw [hcons true, htail.1]⟩

theorem collapseWs_eq_self {s : List Char} (h : WsCanon s) : collapseWs s = s :=
  (collapseWsGo_eq_self h).1

theorem dropWhile_head?_false {l : List Char} {c : Char}
    (h : (l.dropWhile isPySpace).head? = some c) : isPySpace c = false := by
  induction l with
  | nil => simp at h
  | cons a l ih =>
    rw [List.dropWhile_cons] at h
    by_cases ha : isPySpace a = true
    · rw [if_pos ha] at h
      exact ih h
    · rw [if_neg ha] at h
      simp only [List.head?_cons, Option.some.injEq] at h
      subst h
      simpa using ha

theorem rdropWhile_getLast?_false {l : List Char} {c : Char}
    (h : (l.rdropWhile isPySpace).getLast? = some c) : isPySpace c = false := by
  have hne : l.rdropWhile isPySpace ≠ [] := by
    intro he; rw [he] at h; simp at h
  have h2 := List.rdropWhile_last_not isPySpace l hne
  rw [List.getLast?_eq_getLast _ hne, Option.some.injEq] at h
  subst h
  simpa using h2

theorem stripWs_getLast?_false {s : List Char} {c : Char}
    (h : (stripWs s).getLast? = some c) : isPySpace c = false :=
  rdropWhile_getLast?_false h

theorem stripWs_head?_false {s : List Char} {c : Char}
    (h : (stripWs s).head? = some c) : isPySpace c = false := by
  unfold stripWs at h
  obtain ⟨t, ht⟩ := List.rdropWhile_prefix isPySpace (s.dropWhile isPySpace)
  apply dropWhile_head?_false (l := s)
  rw [← ht, List.head?_append, h]
  rfl

theorem stripWs_eq_self {s : List Char}
    (hh : ∀ c, s.head? = some c → isPySpace c = false)
    (hl : ∀ c, s.getLast? = some c → isPySpace c = false) : stripWs s = s := by
  unfold stripWs
  have h1 : s.dropWhile isPySpace = s := by
    cases s with
    | nil => rfl
    | cons a l =>
      rw [List.dropWhile_cons, hh a rfl]
      simp
  rw [h1]
  refine List.rdropWhile_eq_self_iff.mpr ?_
  intro hne
  rw [hl (s.getLast hne) (List.getLast?_eq_getLast _ hne)]
  simp

theorem stripWs_idem (s : List Char) : stripWs (stripWs s) = stripWs s :=
  stripWs_eq_self (fun _ h => stripWs_head?_false h) (fun _ h => stripWs_getLast?_false h)

theorem stripWs_wsCanon {s : List Char} (h : WsCanon s) : WsCanon (stripWs s) := by
  refine ⟨?_, ?_⟩
  · intro c hc
    exact h.1 c ((List.Sublist.mem ((List.rdropWhile_prefix _ _).sublist.mem hc)
      (List.dropWhile_suffix _).sublist))
  · exact chain'_of_prefix (List.rdropWhile_prefix _ _)
      (chain'_of_suffix (List.dropWhile_suffix _) h.2)

theorem mem_stripWs {s : List Char} {c : Char} (h : c ∈ stripWs s) : c ∈ s :=
  List.Sublist.mem ((List.rdropWhile_prefix _ _).sublist.mem h)
    (List.dropWhile_suffix _).sublist

theorem spaceIsWs : isPySpace ' ' = true := by decide

theorem getLast?_mem_of {l : List Char} {c : Char} (h : l.getLast? = some c) :
    c ∈ l := by
  cases l with
  | nil => simp at h
  | cons a l2 =>
    rw [List.getLast?_eq_getLast _ (by simp), Option.some.injEq] at h
    rw [← h]
    exact List.getLast_mem _

theorem splitWsGo_append_nonws :
    ∀ (w cur rest : List Char), (∀ c ∈ w, isPySpace c = false) →
      splitWsGo cur (w ++ rest) = splitWsGo (w.reverse ++ cur) rest := by
  intro w
  induction w with
  | nil => intro cur rest _; simp
  | cons c ws ih =>
    intro cur rest hall
    have hc : isPySpace c = false := hall c (List.mem_cons_self _ _)
    rw [List.cons_append, show splitWsGo cur (c :: (ws ++ rest)) =
      splitWsGo (c :: cur) (ws ++ rest) by simp [splitWsGo, hc]]
    rw [ih (c :: cur) rest (fun d hd => hall d (List.mem_cons_of_mem _ hd))]
    congr 1
    simp

theorem splitWsGo_sound :
    ∀ (s cur : List Char), (∀ c ∈ cur, isPySpace c = false) →
      ∀ t ∈ splitWsGo cur s,
        t ≠ [] ∧ (∀ c ∈ t, isPySpace c = false) ∧ (∀ c ∈ t, c ∈ cur ∨ c ∈ s) := by
  intro s
  induction s with
  | nil =>
    intro cur hcur t ht
    by_cases hc : cur = []
    · rw [show splitWsGo cur [] = [] by simp [splitWsGo, hc]] at ht
      simp at ht
    · rw [show splitWsGo cur [] = [cur.reverse] by simp [splitWsGo, hc]] at ht
      simp only [List.mem_singleton] at ht
      subst ht
      exact ⟨by simpa using hc,
        fun c hct => hcur c (List.mem_reverse.mp hct),
        fun c hct => Or.inl (List.mem_reverse.mp hct)⟩
  | cons d cs ih =>
    intro cur hcur t ht
    by_cases hd : isPySpace d = true
    · by_cases hc : cur = []
      · rw [show splitWsGo cur (d :: cs) = splitWsGo [] cs by
          simp [splitWsGo, hd, hc]] at ht
        obtain ⟨h1, h2, h3⟩ := ih [] (by simp) t ht
        exact ⟨h1, h2, fun c hct => by
          rcases h3 c hct with h4 | h4
          · simp at h4
          · exact Or.inr (List.mem_cons_of_mem _ h4)⟩
      · rw [show splitWsGo cur (d :: cs) = cur.reverse :: splitWsGo [] cs by
          simp [splitWsGo, hd, hc]] at ht
        rcases List.mem_cons.mp ht with rfl | ht2
        · exact ⟨by simpa using hc,
            fun c hct => hcur c (List.mem_reverse.mp hct),
            fun c hct => Or.inl (List.mem_reverse.mp hct)⟩
        · obtain ⟨h1, h2, h3⟩ := ih [] (by simp) t ht2
          exact ⟨h1, h2, fun c hct => by
            rcases h3 c hct with h4 | h4
            · simp at h4
            · exact Or.inr (List.mem_cons_of_mem _ h4)⟩
    · rw [show splitWsGo cur (d :: cs) = splitWsGo (d :: cur) cs by
        simp [splitWsGo, hd]] at ht
      obtain ⟨h1, h2, h3⟩ := ih (d :: cur)
        (fun c hc => by
          rcases List.mem_cons.mp hc with rfl | hc2
          · simpa using hd
          · exact hcur c hc2) t ht
      refine ⟨h1, h2, fun c hct => ?_⟩
      rcases h3 c hct with h4 | h4
      · rcases List.mem_cons.mp h4 with rfl | h5
        · exact Or.inr (List.mem_cons_self _ _)
        · exact Or.inl h5
      · exact Or.inr (List.mem_cons_of_mem _ h4)

theorem splitWs_sound {s : List Char} :
    ∀ t ∈ splitWs s, t ≠ [] ∧ (∀ c ∈ t, isPySpace c = false) ∧ (∀ c ∈ t, c ∈ s) := by
  intro t ht
  obtain ⟨h1, h2, h3⟩ := splitWsGo_sound s [] (by simp) t ht
  exact ⟨h1, h2, fun c hc => by
    rcases h3 c hc with h4 | h4
    · simp at h4
    · exact h4⟩

theorem splitWs_joinSp :
    ∀ (ts : List (List Char)), (∀ t ∈ ts, t ≠ []) →
      (∀ t ∈ ts, ∀ c ∈ t, isPySpace c = false) → splitWs (joinSp ts) = ts := by
  intro ts
  induction ts with
  | nil => intro _ _; rfl
  | cons t ts ih =>
    intro hne hws
    have htne : t ≠ [] := hne t (List.mem_cons_self _ _)
    have htws : ∀ c ∈ t, isPySpace c = false := hws t (List.mem_cons_self _ _)
    cases ts with
    | nil =>
      show splitWsGo [] (joinSp [t]) = [t]
      rw [show joinSp [t] = t from rfl, ← List.append_nil t,
        splitWsGo_append_nonws t [] [] htws]
      rw [show splitWsGo (t.reverse ++ []) [] = [(t.reverse ++ []).reverse] by
        simp [splitWsGo, htne]]
      simp
    | cons t2 ts2 =>
      show splitWsGo [] (joinSp (t :: t2 :: ts2)) = t :: t2 :: ts2
      rw [show joinSp (t :: t2 :: ts2) = t ++ ' ' :: joinSp (t2 :: ts2) from rfl,
        splitWsGo_append_nonws t [] _ htws]
      rw [show splitWsGo (t.reverse ++ []) (' ' :: joinSp (t2 :: ts2)) =
          (t.reverse ++ []).reverse :: splitWsGo [] (joinSp (t2 :: ts2)) by
        simp [splitWsGo, htne, spaceIsWs]]
      have := ih (fun u hu => hne u (List.mem_cons_of_mem _ hu))
        (fun u hu => hws u (List.mem_cons_of_mem _ hu))
      rw [show splitWsGo [] (joinSp (t2 :: ts2)) = splitWs (joinSp (t2 :: ts2)) from rfl,
        this]
      simp

theorem joinSp_ne_nil {t : List Char} {ts : List (List Char)} (h : t ≠ []) :
    joinSp (t :: ts) ≠ [] := by
  cases ts with
  | nil => simpa [joinSp] using h
  | cons t2 ts2 => simp [joinSp]

theorem mem_joinSp : ∀ {ts : List (List Char)} {c : Char},
    c ∈ joinSp ts → c = ' ' ∨ ∃ t ∈ ts, c ∈ t := by
  intro ts
  induction ts with
  | nil => intro c h; simp [joinSp] at h
  | cons t ts ih =>
    intro c h
    cases ts with
    | nil =>
      exact Or.inr ⟨t, List.mem_cons_self _ _, by simpa [joinSp] using h⟩
    | cons t2 ts2 =>
      rw [show joinSp (t :: t2 :: ts2) = t ++ ' ' :: joinSp (t2 :: ts2) from rfl] at h
      rcases List.mem_append.mp h with h1 | h2
      · exact Or.inr ⟨t, List.mem_cons_self _ _, h1⟩
      · rcases List.mem_cons.mp h2 with rfl | h3
        · exact Or.inl rfl
        · rcases ih h3 with h4 | ⟨u, hu, hcu⟩
          · exact Or.inl h4
          · exact Or.inr ⟨u, List.mem_cons_of_mem _ hu, hcu⟩

theorem joinSp_head?_nonws : ∀ {ts : List (List Char)},
    (∀ t ∈ ts, t ≠ []) → (∀ t ∈ ts, ∀ c ∈ t, isPySpace c = false) →
      ∀ c, (joinSp ts).head? = some c → isPySpace c = false := by
  intro ts hne hws c h
  cases ts with
  | nil => simp [joinSp] at h
  | cons t ts2 =>
    have htne := hne t (List.mem_cons_self _ _)
    have hform : (joinSp (t :: ts2)).head? = t.head? := by
      cases ts2 with
      | nil => rfl
      | cons u us =>
        rw [show joinSp (t :: u :: us) = t ++ ' ' :: joinSp (u :: us) from rfl,
          List.head?_append]
        cases t with
        | nil => exact absurd rfl htne
        | cons a t2 => rfl
    rw [hform] at h
    exact hws t (List.mem_cons_self _ _) c (List.mem_of_mem_head? (by rw [h]; rfl))

theorem joinSp_getLast?_nonws : ∀ {ts : List (List Char)},
    (∀ t ∈ ts, t ≠ []) → (∀ t ∈ ts, ∀ c ∈ t, isPySpace c = false) →
      ∀ c, (joinSp ts).getLast? = some c → isPySpace c = false := by
  intro ts
  induction ts with
  | nil => intro _ _ c h; simp [joinSp] at h
  | cons t ts2 ih =>
    intro hne hws c h
    cases ts2 with
    | nil =>
      exact hws t (List.mem_cons_self _ _) c (getLast?_mem_of (by simpa [joinSp] using h))
    | cons u us =>
      rw [show joinSp (t :: u :: us) = t ++ ' ' :: joinSp (u :: us) from rfl,
        List.getLast?_append_of_ne_nil _ (by simp)] at h
      have hune : joinSp (u :: us) ≠ [] := joinSp_ne_nil (hne u (by simp))
      cases hj : joinSp (u :: us) with
      | nil => exact absurd hj hune
      | cons b bs =>
        rw [hj, List.getLast?_cons_cons] at h
        apply ih (fun v hv => hne v (List.mem_cons_of_mem _ hv))
          (fun v hv => hws v (List.mem_cons_of_mem _ hv)) c
        rw [hj]
        exact h

theorem chain'_all_nonws : ∀ {l : List Char},
    (∀ c ∈ l, isPySpace c = false) → List.Chain' NoWsPair l := by
  intro l
  induction l with
  | nil => intro _; exact List.chain'_nil
  | cons a l2 ih =>
    intro h
    rw [List.chain'_cons']
    refine ⟨fun y _ hp => ?_, ih fun c hc => h c (List.mem_cons_of_mem _ hc)⟩
    rw [h a (List.mem_cons_self _ _)] at hp
    exact absurd hp.1 (by simp)

theorem joinSp_wsCanon {ts : List (List Char)}
    (hne : ∀ t ∈ ts, t ≠ []) (hws : ∀ t ∈ ts, ∀ c ∈ t, isPySpace c = false) :
    WsCanon (joinSp ts) := by
  constructor
  · intro c hc hcs
    rcases mem_joinSp hc with h1 | ⟨t, ht, hct⟩
    · exact h1
    · rw [hws t ht c hct] at hcs
      cases hcs
  · induction ts with
    | nil => exact List.chain'_nil
    | cons t ts2 ih =>
      cases ts2 with
      | nil => exact chain'_all_nonws (hws t (List.mem_cons_self _ _))
      | cons u us =>
        rw [show joinSp (t :: u :: us) = t ++ ' ' :: joinSp (u :: us) from rfl]
        rw [List.chain'_append]
        refine ⟨chain'_all_nonws (hws t (List.mem_cons_self _ _)), ?_, ?_⟩
        · rw [List.chain'_cons']
          refine ⟨fun y hy hp => ?_, ?_⟩
          · rw [joinSp_head?_nonws (fun v hv => hne v (List.mem_cons_of_mem _ hv))
              (fun v hv => hws v (List.mem_cons_of_mem _ hv)) y hy] at hp
            exact absurd hp.2 (by simp)
          · exact ih (fun v hv => hne v (List.mem_cons_of_mem _ hv))
              (fun v hv => hws v (List.mem_cons_of_mem _ hv))
        · intro x hx y hy hp
          have hxt : x ∈ t := getLast?_mem_of hx
          rw [hws t (List.mem_cons_self _ _) x hxt] at hp
          exact absurd hp.1 (by simp)

theorem dedupAdjGo_subset : ∀ {l : List (List Char)} {p t : List Char},
    t ∈ dedupAdjGo p l → t ∈ l := by
  intro l
  induction l with
  | nil => intro p t h; simp [dedupAdjGo] at h
  | cons u l2 ih =>
    intro p t h
    rw [dedupAdjGo] at h
    by_cases hu : u = p
    · rw [if_pos hu] at h
      exact List.mem_cons_of_mem _ (ih h)
    · rw [if_neg hu] at h
      rcases List.mem_cons.mp h with rfl | h2
      · exact List.mem_cons_self _ _
      · exact List.mem_cons_of_mem _ (ih h2)

theorem dedupAdj_subset {l : List (List Char)} {t : List Char}
    (h : t ∈ dedupAdj l) : t ∈ l := by
  cases l with
  | nil => simp [dedupAdj] at h
  | cons u l2 =>
    rw [dedupAdj] at h
    rcases List.mem_cons.mp h with rfl | h2
    · exact List.mem_cons_self _ _
    · exact List.mem_cons_of_mem _ (dedupAdjGo_subset h2)

theorem dedupAdjGo_idem : ∀ (l : List (List Char)) (p : List Char),
    dedupAdjGo p (dedupAdjGo p l) = dedupAdjGo p l := by
  intro l
  induction l with
  | nil => intro p; rfl
  | cons u l2 ih =>
    intro p
    by_cases hu : u = p
    · rw [dedupAdjGo, if_pos hu, ih]
    · rw [dedupAdjGo, if_neg hu, dedupAdjGo, if_neg hu, ih]

theorem dedupAdj_idem (l : List (List Char)) : dedupAdj (dedupAdj l) = dedupAdj l := by
  cases l with
  | nil => rfl
  | cons u l2 =>
    rw [dedupAdj, dedupAdj, dedupAdjGo_idem]

theorem normPre_chars_nonstrict {s : List Char} :
    ∀ x ∈ normPre false s, isPySpace x = false →
      isArabicLetter x = true ∧ translateChar x = [x] := by
  intro x hx hws
  simp only [normPre, Bool.false_eq_true, if_false, List.mem_map] at hx
  obtain ⟨y, hy, hxy⟩ := hx
  have hy2 := List.mem_filter.mp hy
  obtain ⟨z, _, hz⟩ := List.mem_flatMap.mp hy2.1
  have hid : translateChar y = [y] := translateChar_out hz
  unfold punctToSpace at hxy
  by_cases hcase : (isArabicLetter y || isPySpace y) = true
  · rw [if_pos hcase] at hxy
    subst hxy
    rcases Bool.or_eq_true .. ▸ hcase with hl | hsp
    · exact ⟨hl, hid⟩
    · rw [hsp] at hws; cases hws
  · rw [if_neg hcase] at hxy
    subst hxy
    rw [spaceIsWs] at hws
    cases hws

theorem normPre_chars_strict {s : List Char} :
    ∀ x ∈ normPre true s, isPySpace x = false → isArabicLetter x = true := by
  intro x hx hws
  simp only [normPre, if_true, List.mem_map] at hx
  obtain ⟨y, _, hxy⟩ := hx
  unfold punctToSpace at hxy
  by_cases hcase : (isArabicLetter y || isPySpace y) = true
  · rw [if_pos hcase] at hxy
    subst hxy
    rcases Bool.or_eq_true .. ▸ hcase with hl | hsp
    · exact hl
    · rw [hsp] at hws; cases hws
  · rw [if_neg hcase] at hxy
    subst hxy
    rw [spaceIsWs] at hws
    cases hws

theorem normPre_eq_self_nonstrict {s : List Char}
    (hchar : ∀ c ∈ s, c = ' ' ∨ (isArabicLetter c = true ∧ translateChar c = [c])) :
    normPre false s = s := by
  have h1 : s.filter (fun c => !isArabicDiacritic c) = s := by
    refine List.filter_eq_self.mpr fun c hc => ?_
    rcases hchar c hc with rfl | ⟨hl, _⟩
    · decide
    · simp [letter_not_diacritic hl]
  have h2 : s.flatMap translateChar = s := by
    refine flatMap_id_of fun c hc => ?_
    rcases hchar c hc with rfl | ⟨_, hid⟩
    · decide
    · exact hid
  have h3 : s.filter (fun c => c != 'ـ') = s := by
    refine List.filter_eq_self.mpr fun c hc => ?_
    rcases hchar c hc with rfl | ⟨_, hid⟩
    · decide
    · simp only [bne_iff_ne, ne_eq]
      intro he
      rw [he] at hid
      simp [translateChar] at hid
  have h4 : s.map punctToSpace = s := by
    refine map_id_of fun c hc => ?_
    rcases hchar c hc with rfl | ⟨hl, _⟩
    · decide
    · simp [punctToSpace, hl]
  simp only [normPre, Bool.false_eq_true, if_false, h1, h2, h3, h4]

theorem normPre_eq_self_strict {s : List Char}
    (hchar : ∀ c ∈ s, c = ' ' ∨ isArabicLetter c = true) :
    normPre true s = s := by
  have h1 : s.filter (fun c => !isArabicDiacritic c) = s := by
    refine List.filter_eq_self.mpr fun c hc => ?_
    rcases hchar c hc with rfl | hl
    · decide
    · simp [letter_not_diacritic hl]
  have h4 : s.map punctToSpace = s := by
    refine map_id_of fun c hc => ?_
    rcases hchar c hc with rfl | hl
    · decide
    · simp [punctToSpace, hl]
  simp only [normPre, if_true, h1, h4]

theorem normalizeArabic_strict_eq (s : List Char) :
    normalizeArabic true s = stripWs (collapseWs (normPre true s)) := by
  simp [normalizeArabic]

theorem normalizeArabic_false_eq (s : List Char) :
    normalizeArabic false s =
      joinSp (dedupAdj (splitWs (stripWs (collapseWs (normPre false s))))) := by
  simp only [normalizeArabic, Bool.not_false, Bool.true_and]
  by_cases h : (stripWs (collapseWs (normPre false s))).isEmpty
  · have h4 : stripWs (collapseWs (normPre false s)) = [] := List.isEmpty_iff.mp h
    rw [h4]
    rfl
  · rw [if_pos (by simp [h])]

theorem normalizeArabic_chars_nonstrict {s : List Char} :
    ∀ c ∈ normalizeArabic false s,
      c = ' ' ∨ (isArabicLetter c = true ∧ translateChar c = [c]) := by
  rw [normalizeArabic_false_eq]
  intro c hc
  rcases mem_joinSp hc with h1 | ⟨t, ht, hct⟩
  · exact Or.inl h1
  · have ht2 := dedupAdj_subset ht
    obtain ⟨_, hws, hmem⟩ := splitWs_sound t ht2
    have hc4 := mem_stripWs (hmem c hct)
    rcases mem_collapseWs hc4 with h5 | ⟨h6, _⟩
    · exact Or.inl h5
    · exact Or.inr (normPre_chars_nonstrict c h6 (hws c hct))

theorem normalizeArabic_chars_strict {s : List Char} :
    ∀ c ∈ normalizeArabic true s, c = ' ' ∨ isArabicLetter c = true := by
  rw [normalizeArabic_strict_eq]
  intro c hc
  have hc4 := mem_stripWs hc
  rcases mem_collapseWs hc4 with h5 | ⟨h6, h7⟩
  · exact Or.inl h5
  · exact Or.inr (normPre_chars_strict c h6 h7)

theorem normalizeArabic_idem_nonstrict (s : List Char) :
    normalizeArabic false (normalizeArabic false s) = normalizeArabic false s := by
  have hres := normalizeArabic_false_eq s
  set ts := dedupAdj (splitWs (stripWs (collapseWs (normPre false s)))) with hts
  have tsne : ∀ t ∈ ts, t ≠ [] := fun t ht =>
    (splitWs_sound t (dedupAdj_subset ht)).1
  have tsws : ∀ t ∈ ts, ∀ c ∈ t, isPySpace c = false := fun t ht =>
    (splitWs_sound t (dedupAdj_subset ht)).2.1
  have hpre : normPre false (normalizeArabic false s) = normalizeArabic false s :=
    normPre_eq_self_nonstrict normalizeArabic_chars_nonstrict
  have hcanon : WsCanon (normalizeArabic false s) := by
    rw [hres]; exact joinSp_wsCanon tsne tsws
  have hcol : collapseWs (normalizeArabic false s) = normalizeArabic false s :=
    collapseWs_eq_self hcanon
  have hstrip : stripWs (normalizeArabic false s) = normalizeArabic false s := by
    refine stripWs_eq_self ?_ ?_
    · rw [hres]; exact fun c h => joinSp_head?_nonws tsne tsws c h
    · rw [hres]; exact fun c h => joinSp_getLast?_nonws tsne tsws c h
  have hsplit : splitWs (normalizeArabic false s) = ts := by
    rw [hres]; exact splitWs_joinSp ts tsne tsws
  calc normalizeArabic false (normalizeArabic false s)
      = joinSp (dedupAdj (splitWs (stripWs (collapseWs
          (normPre false (normalizeArabic false s)))))) :=
        normalizeArabic_false_eq _
    _ = joinSp (dedupAdj ts) := by rw [hpre, hcol, hstrip, hsplit]
    _ = joinSp ts := by rw [hts, dedupAdj_idem]
    _ = normalizeArabic false s := hres.symm

theorem normalizeArabic_idem_strict (s : List Char) :
    normalizeArabic true (normalizeArabic true s) = normalizeArabic true s := by
  have hres := normalizeArabic_strict_eq s
  have hpre : normPre true (normalizeArabic true s) = normalizeArabic true s :=
    normPre_eq_self_strict normalizeArabic_chars_strict
  have hcanon : WsCanon (normalizeArabic true s) := by
    rw [hres]; exact stripWs_wsCanon (collapseWs_wsCanon _)
  have hcol : collapseWs (normalizeArabic true s) = normalizeArabic true s :=
    collapseWs_eq_self hcanon
  have hstrip : stripWs (normalizeArabic true s) = normalizeArabic true s := by
    rw [hres, stripWs_idem]
  calc normalizeArabic true (normalizeArabic true s)
      = stripWs (collapseWs (normPre true (normalizeArabic true s))) :=
        normalizeArabic_strict_eq _
    _ = normalizeArabic true s := by rw [hpre, hcol, hstrip]

/-- C8: normalize is idempotent in both the default non-strict mode and
    strict mode, and the empty string normalizes to the empty string.
    Totality holds by construction: normalizeArabic is a total function
    on all character lists. -/
theorem normalize_idempotent_total_empty :
    (∀ (strict : Bool) (s : List Char),
      normalizeArabic strict (normalizeArabic strict s) = normalizeArabic strict s) ∧
    (∀ strict : Bool, normalizeArabic strict [] = []) := by
  constructor
  · intro strict s
    cases strict
    · exact normalizeArabic_idem_nonstrict s
    · exact normalizeArabic_idem_strict s
  · intro strict
    cases strict <;> rfl

/-! ## Corpus loading (load_corpus, _build_match_forms): claims C7, C10 -/

/-- One parsed ayah object of the corpus JSON; `none` models a missing
    key, read via ayah.get("number", 0) and ayah.get("text", ""). -/
structure AyahJson where
  number : Option Int
  text : List Char
deriving DecidableEq

/-- One parsed surah object of the corpus JSON. -/
structure SurahJson where
  number : Option Int
  name : Option String
  ayahs : List AyahJson
deriving DecidableEq

/-- The parsed corpus JSON; payload.get("surahs", []) is the field. -/
structure CorpusPayload where
  surahs : List SurahJson
deriving DecidableEq

/-- One canonical ayah as loaded by load_corpus. -/
structure AyahEntry where
  surah_number : Int
  surah : String
  ayah : Int
  text : List Char
  normalized : List Char
  match_forms : List (List Char)
deriving DecidableEq

/-- The MUQATTAAT_SPOKEN_FORMS table: compact disjoined-letter openers
    to their spoken-letter variants. -/
def muqattaatSpokenForms (compact : List Char) : Option (List (List Char)) :=
  if compact = "الم".toList then some ["الف لام ميم".toList]
  else if compact = "المر".toList then some ["الف لام ميم را".toList]
  else if compact = "الر".toList then some ["الف لام را".toList]
  else if compact = "كهيعص".toList then some ["كاف ها يا عين صاد".toList]
  else if compact = "طه".toList then some ["طا ها".toList]
  else if compact = "طسم".toList then some ["طا سين ميم".toList]
  else if compact = "طس".toList then some ["طا سين".toList]
  else if compact = "يس".toList then some ["يا سين".toList]
  else if compact = "ص".toList then some ["صاد".toList]
  else if compact = "حم".toList then some ["حا ميم".toList]
  else if compact = "عسق".toList then some ["عين سين قاف".toList]
  else if compact = "ق".toList then some ["قاف".toList]
  else if compact = "ن".toList then some ["نون".toList]
  else none

/-- _build_match_forms: the normalized text first, then spoken-letter
    variants for ayah 1 of a disjoined-letter opener surah. -/
def buildMatchForms (ayahNumber : Int) (normalizedText : List Char) : List (List Char) :=
  let compact := normalizedText.filter (fun c => c != ' ')
  let base := [normalizedText]
  if ayahNumber = 1 then
    match muqattaatSpokenForms compact with
    | some variants =>
        variants.foldl (fun forms variant =>
          let nv := normalizeArabic false variant
          if nv ≠ [] ∧ nv ∉ forms then forms ++ [nv] else forms) base
    | none => base
  else base

/-- The per-ayah loader of load_corpus (the body of its inner loop, on
    an already-parsed payload; json parsing and the missing-file empty
    return are outside the embedding).  Ayat whose text normalizes to
    the empty string are skipped. -/
def loadAyah (surahNumber : Int) (surahName : String) (ayah : AyahJson) :
    Option AyahEntry :=
  let ayahNumber := ayah.number.getD 0
  let ayahText := stripWs ayah.text
  let normalized := normalizeArabic false ayahText
  if normalized = [] then none
  else some { surah_number := surahNumber
              surah := surahName
              ayah := ayahNumber
              text := ayahText
              normalized := normalized
              match_forms := buildMatchForms ayahNumber normalized }

/-- load_corpus iterates the surahs, reading number and name with their
    defaults, and collects the per-ayah entries. -/
def loadCorpus (payload : CorpusPayload) : List AyahEntry :=
  payload.surahs.flatMap (fun surah =>
    surah.ayahs.filterMap
      (loadAyah (surah.number.getD 0) (surah.name.getD "Unknown Surah")))

/-- The same payload with every ayah whose text normalizes to the empty
    string removed (stated from the spec words, for comparison). -/
def pruneEmptyAyahs (payload : CorpusPayload) : CorpusPayload :=
  ⟨payload.surahs.map (fun surah =>
    ⟨surah.number, surah.name,
     surah.ayahs.filter (fun ayah =>
       decide (normalizeArabic false (stripWs ayah.text) ≠ []))⟩)⟩

theorem buildMatchForms_head (ayahNumber : Int) (normalizedText : List Char) :
    (buildMatchForms ayahNumber normalizedText).head? = some normalizedText := by
  have hfold : ∀ (vs : List (List Char)) (forms : List (List Char)),
      forms ≠ [] →
      (vs.foldl (fun forms variant =>
        let nv := normalizeArabic false variant
        if nv ≠ [] ∧ nv ∉ forms then forms ++ [nv] else forms) forms).head? = forms.head? := by
    intro vs
    induction vs with
    | nil => intro forms _; rfl
    | cons v vs2 ih =>
      intro forms hne
      simp only [List.foldl_cons]
      by_cases hc : normalizeArabic false v ≠ [] ∧ normalizeArabic false v ∉ forms
      · rw [if_pos hc, ih _ (by simp [hne])]
        cases forms with
        | nil => exact absurd rfl hne
        | cons f fs => rfl
      · rw [if_neg hc, ih _ hne]
  unfold buildMatchForms
  by_cases h1 : ayahNumber = 1
  · rw [if_pos h1]
    cases hm : muqattaatSpokenForms (normalizedText.filter (fun c => c != ' ')) with
    | none => rfl
    | some variants => exact hfold variants [normalizedText] (by simp)
  · rw [if_neg h1]
    rfl

theorem filterMap_filter_eq {α β : Type} (f : α → Option β) (p : α → Bool)
    (h : ∀ a, (f a).isSome = p a) (l : List α) :
    (l.filter p).filterMap f = l.filterMap f := by
  induction l with
  | nil => rfl
  | cons a l2 ih =>
    have hfa : f a = none ∨ ∃ b, f a = some b := by
      cases f a with
      | none => exact Or.inl rfl
      | some b => exact Or.inr ⟨b, rfl⟩
    rw [List.filter_cons]
    by_cases hp : p a = true
    · rw [if_pos hp, List.filterMap_cons, List.filterMap_cons, ih]
    · rw [if_neg hp, List.filterMap_cons, ih]
      rcases hfa with hn | ⟨b, hb⟩
      · rw [hn]
      · have h2 := h a
        rw [hb] at h2
        simp only [Option.isSome_some] at h2
        exact absurd h2.symm hp

theorem filterMap_length_filter {α β : Type} (f : α → Option β) (p : α → Bool)
    (h : ∀ a, (f a).isSome = p a) (l : List α) :
    (l.filterMap f).length = (l.filter p).length := by
  induction l with
  | nil => rfl
  | cons a l2 ih =>
    rw [List.filter_cons, List.filterMap_cons]
    have h2 := h a
    by_cases hp : p a = true
    · rw [if_pos hp]
      rw [hp] at h2
      cases hfa : f a with
      | none => rw [hfa] at h2; simp at h2
      | some b => simp only [List.length_cons, ih]
    · rw [if_neg hp]
      cases hfa : f a with
      | none => exact ih
      | some b =>
        rw [hfa] at h2
        simp only [Option.isSome_some] at h2
        exact absurd h2.symm hp

theorem loadAyah_isSome (sn : Int) (name : String) (a : AyahJson) :
    (loadAyah sn name a).isSome =
      decide (normalizeArabic false (stripWs a.text) ≠ []) := by
  unfold loadAyah
  by_cases hn : normalizeArabic false (stripWs a.text) = []
  · simp [hn]
  · simp [hn]

/-- C10: every loaded AyahEntry has a non-empty normalized text whose
    first match form is that normalized text, and the loader returns the
    same sequence as on the corpus with all empty-normalizing ayat
    removed (they are silently omitted, so ayah-number gaps can occur
    inside a surah). -/
theorem loadCorpus_entry_invariants :
    ∀ payload : CorpusPayload,
      (∀ e ∈ loadCorpus payload,
        e.normalized ≠ [] ∧ e.match_forms.head? = some e.normalized) ∧
      loadCorpus payload = loadCorpus (pruneEmptyAyahs payload) := by
  intro payload
  constructor
  · intro e he
    unfold loadCorpus at he
    obtain ⟨surah, _, he2⟩ := List.mem_flatMap.mp he
    obtain ⟨ayah, _, he3⟩ := List.mem_filterMap.mp he2
    unfold loadAyah at he3
    by_cases hn : normalizeArabic false (stripWs ayah.text) = []
    · rw [if_pos hn] at he3
      cases he3
    · rw [if_neg hn] at he3
      injection he3 with he4
      subst he4
      dsimp only
      exact ⟨hn, buildMatchForms_head _ _⟩
  · unfold loadCorpus pruneEmptyAyahs
    rw [List.flatMap_map]
    congr 1
    funext surah
    exact (filterMap_filter_eq _ _ (fun a => loadAyah_isSome _ _ a) surah.ayahs).symm

/-- A malformed corpus: surah number 500 (out of the 1..114 range), an
    ayah numbered 0. -/
def badCorpusPayload : CorpusPayload :=
  ⟨[⟨some 500, some "Overflow", [⟨some 0, "كتاب".toList⟩]⟩]⟩

/-- C7 counterexample: load_corpus performs no validation; a corpus with
    an out-of-range surah number and a zero ayah number is silently
    loaded as an entry sequence, not rejected with a structured error. -/
theorem loadCorpus_accepts_malformed :
    (loadCorpus badCorpusPayload).length = 1 ∧
    ∀ e ∈ loadCorpus badCorpusPayload, e.surah_number = 500 ∧ e.ayah = 0 := by
  constructor
  · rfl
  · decide

/-- C7 amended: load_corpus is total and never rejects; it returns
    exactly one entry for every ayah of the payload whose stripped text
    normalizes to a non-empty string, whatever the surah and ayah
    numbers are. -/
theorem loadCorpus_never_rejects (payload : CorpusPayload) :
    (loadCorpus payload).length =
      (payload.surahs.map (fun surah =>
        (surah.ayahs.filter (fun ayah =>
          decide (normalizeArabic false (stripWs ayah.text) ≠ []))).length)).sum := by
  unfold loadCorpus
  rw [List.length_flatMap]
  congr 1
  apply List.map_congr_left
  intro surah _
  simp only [Function.comp_apply]
  exact filterMap_length_filter _ _ (fun a => loadAyah_isSome _ _ a) surah.ayahs

/-! ## Candidate scoring and matcher selection (claims C3, C5, C6) -/

/-- Python range(a, b) over integers. -/
def rangeInt (a b : Int) : List Int :=
  (List.range (b - a).toNat).map (fun (i : Nat) => a + (i : Int))

/-- CandidateEvidence records from the candidate generator. -/
structure CandidateEvidence where
  adjusted_score : ℚ
  score : ℚ
  overlap : ℚ
  penalty : ℚ
  source : String
  normalized_text : List Char
  start_time : ℚ
  end_time : ℚ
  word_indices : List Nat
  segment_start_index : Option Nat := none
  segment_end_index : Option Nat := none
deriving DecidableEq

/-- _candidate_confidence(score, rival_score, overlap). -/
def candidateConfidence (score rival_score overlap : ℚ) : ℚ :=
  let margin := max 0 (score - max 0 rival_score)
  ((55/100) * (score / 100)) + ((25/100) * min 1 (margin / 20)) + ((20/100) * overlap)

/-- C6 counterexample: with the +2 anchor bonus the adjusted score can
    reach 102, and the confidence combination exceeds 1 (it reaches
    1.011 at score 102, full margin, overlap 1). -/
theorem candidateConfidence_exceeds_one :
    1 < candidateConfidence 102 0 1 ∧ candidateConfidence 102 0 1 = 1011/1000 := by
  constructor
  · norm_num [candidateConfidence]
  · norm_num [candidateConfidence]

/-- C6 amended: the confidence combination is bounded by [0, 1.011]
    (not [0, 1]) whenever the adjusted score lies in the reachable range
    [0, 102] (composite score at most 100, anchor bonus +2) and the
    overlap lies in [0, 1]. -/
theorem candidateConfidence_bounds (score rival_score overlap : ℚ)
    (h1 : 0 ≤ score) (h2 : score ≤ 102) (h3 : 0 ≤ overlap) (h4 : overlap ≤ 1) :
    0 ≤ candidateConfidence score rival_score overlap ∧
      candidateConfidence score rival_score overlap ≤ 1011/1000 := by
  unfold candidateConfidence
  have hm0 : (0:ℚ) ≤ max 0 (score - max 0 rival_score) := le_max_left _ _
  have hmin1 : min 1 (max 0 (score - max 0 rival_score) / 20) ≤ 1 := min_le_left _ _
  have hmin0 : (0:ℚ) ≤ min 1 (max 0 (score - max 0 rival_score) / 20) :=
    le_min (by norm_num) (by positivity)
  constructor <;> nlinarith

theorem candidateConfidence_bounds_witness :
    0 ≤ candidateConfidence 102 0 1 ∧ candidateConfidence 102 0 1 ≤ 1011/1000 :=
  candidateConfidence_bounds 102 0 1 (by norm_num) (by norm_num) (by norm_num)
    (by norm_num)

/-- _candidate_is_valid: returns (valid, quality, rounded confidence). -/
def candidateIsValid (candidate : CandidateEvidence) (rival_score : ℚ)
    (local_min_score local_min_overlap threshold : ℚ)
    (ambiguous_min_score ambiguous_min_confidence : ℚ) :
    Bool × Option String × ℚ :=
  let confidence :=
    candidateConfidence candidate.adjusted_score rival_score candidate.overlap
  let ambiguous_min_overlap := max (1/10) (local_min_overlap * (6/10))
  let is_high :=
    decide (candidate.adjusted_score ≥ local_min_score) &&
    decide (candidate.overlap ≥ local_min_overlap) &&
    decide (confidence ≥ threshold)
  let is_ambiguous :=
    decide (candidate.adjusted_score ≥ ambiguous_min_score) &&
    decide (candidate.overlap ≥ ambiguous_min_overlap) &&
    decide (confidence ≥ ambiguous_min_confidence)
  if !is_high && !is_ambiguous then (false, none, roundQ3 confidence)
  else (true, some (if is_high then "high" else "ambiguous"), roundQ3 confidence)

/-- The state of the acquisition scan: best index, its candidate, best
    and second-best adjusted scores. -/
structure AcquireState where
  topIndex : Int
  topCandidate : Option CandidateEvidence
  topScore : ℚ
  secondScore : ℚ
deriving DecidableEq

/-- One iteration of the acquisition loop over candidate indices. -/
def acquireStep (evaluate : Int → Option CandidateEvidence)
    (st : AcquireState) (index : Int) : AcquireState :=
  match evaluate index with
  | none => st
  | some candidate =>
    if candidate.adjusted_score > st.topScore then
      ⟨index, some candidate, candidate.adjusted_score, st.topScore⟩
    else if candidate.adjusted_score > st.secondScore then
      ⟨st.topIndex, st.topCandidate, st.topScore, candidate.adjusted_score⟩
    else st

/-- The acquisition branch of match_quran_markers (pointer < 0): scan
    the window [acquire_start, min(len, acquire_start + 40)), take the
    top-scoring candidate and validate it against min_score/min_overlap
    with confidence threshold max(0.7, min_confidence) and the ambiguous
    thresholds. -/
def acquireSelection (evaluate : Int → Option CandidateEvidence)
    (forced_start_index : Option Int) (corpusLen : Nat)
    (min_score min_overlap min_confidence : ℚ)
    (ambiguous_min_score ambiguous_min_confidence : ℚ) :
    Option (Int × CandidateEvidence × String × ℚ) :=
  let acquire_start := forced_start_index.getD 0
  let acquire_end := min (corpusLen : Int) (acquire_start + 40)
  let st := (rangeInt acquire_start acquire_end).foldl
    (acquireStep evaluate) ⟨-1, none, -1, -1⟩
  if st.topIndex ≥ 0 then
    match st.topCandidate with
    | some top_candidate =>
      let r := candidateIsValid top_candidate st.secondScore min_score min_overlap
        (max (7/10) min_confidence) ambiguous_min_score ambiguous_min_confidence
      if r.1 then
        match r.2.1 with
        | some quality => some (st.topIndex, top_candidate, quality, r.2.2)
        | none => none
      else none
    | none => none
  else none

theorem foldl_acquireStep_congr (f g : Int → Option CandidateEvidence) :
    ∀ (l : List Int), (∀ i ∈ l, f i = g i) → ∀ st : AcquireState,
      l.foldl (acquireStep f) st = l.foldl (acquireStep g) st := by
  intro l
  induction l with
  | nil => intro _ st; rfl
  | cons i l2 ih =>
    intro h st
    simp only [List.foldl_cons]
    rw [show acquireStep f st i = acquireStep g st i by
      unfold acquireStep; rw [h i (List.mem_cons_self _ _)]]
    exact ih (fun j hj => h j (List.mem_cons_of_mem _ hj)) _

theorem mem_rangeInt {a b i : Int} : i ∈ rangeInt a b ↔ a ≤ i ∧ i < b := by
  unfold rangeInt
  simp only [List.mem_map, List.mem_range]
  constructor
  · rintro ⟨k, hk, rfl⟩
    omega
  · intro h
    exact ⟨(i - a).toNat, by omega, by omega⟩

theorem candidateIsValid_sound (cand : CandidateEvidence)
    (rival ms mo th as' ac : ℚ) (q : String)
    (h : (candidateIsValid cand rival ms mo th as' ac).2.1 = some q) :
    (q = "high" ∧ cand.adjusted_score ≥ ms ∧ cand.overlap ≥ mo ∧
      candidateConfidence cand.adjusted_score rival cand.overlap ≥ th) ∨
    (q = "ambiguous" ∧ cand.adjusted_score ≥ as' ∧
      cand.overlap ≥ max (1/10) (mo * (6/10)) ∧
      candidateConfidence cand.adjusted_score rival cand.overlap ≥ ac) := by
  simp only [candidateIsValid] at h
  by_cases hhigh : (decide (cand.adjusted_score ≥ ms) &&
      decide (cand.overlap ≥ mo) &&
      decide (candidateConfidence cand.adjusted_score rival cand.overlap ≥ th)) = true
  · rw [hhigh] at h
    simp only [Bool.not_true, Bool.false_and, Bool.false_eq_true, if_false, if_true,
      Option.some.injEq] at h
    simp only [Bool.and_eq_true, decide_eq_true_eq] at hhigh
    exact Or.inl ⟨h.symm, hhigh.1.1, hhigh.1.2, hhigh.2⟩
  · rw [Bool.not_eq_true] at hhigh
    rw [hhigh] at h
    by_cases hamb : (decide (cand.adjusted_score ≥ as') &&
        decide (cand.overlap ≥ max (1/10) (mo * (6/10))) &&
        decide (candidateConfidence cand.adjusted_score rival cand.overlap ≥ ac)) =
        true
    · rw [hamb] at h
      simp only [Bool.not_false, Bool.not_true, Bool.true_and, Bool.and_false,
        Bool.false_eq_true, if_false, Option.some.injEq] at h
      simp only [Bool.and_eq_true, decide_eq_true_eq] at hamb
      exact Or.inr ⟨h.symm, hamb.1.1, hamb.1.2, hamb.2⟩
    · rw [Bool.not_eq_true] at hamb
      rw [hamb] at h
      simp at h

/-- C3 amended: acquisition consults only the 40-index window starting
    at the forced-start index (or 0), and it accepts the top candidate
    iff it passes the strict high triple — adjusted score at least
    min_score, overlap at least min_overlap, confidence at least
    max(0.7, min_confidence) — OR the ambiguous triple: adjusted score
    at least ambiguous_min_score, overlap at least
    max(0.1, 0.6 * min_overlap), confidence at least
    ambiguous_min_confidence.  The first marker can therefore be
    acquired at ambiguous-level thresholds. -/
theorem acquireSelection_window_and_acceptance :
    (∀ (f g : Int → Option CandidateEvidence) (forced : Option Int)
      (corpusLen : Nat) (ms mo mc as' ac : ℚ),
      (∀ i : Int, forced.getD 0 ≤ i →
        i < min (corpusLen : Int) (forced.getD 0 + 40) → f i = g i) →
      acquireSelection f forced corpusLen ms mo mc as' ac =
        acquireSelection g forced corpusLen ms mo mc as' ac) ∧
    (∀ (f : Int → Option CandidateEvidence) (forced : Option Int)
      (corpusLen : Nat) (ms mo mc as' ac : ℚ) idx cand q conf,
      acquireSelection f forced corpusLen ms mo mc as' ac =
        some (idx, cand, q, conf) →
      (q = "high" ∧ cand.adjusted_score ≥ ms ∧ cand.overlap ≥ mo) ∨
      (q = "ambiguous" ∧ cand.adjusted_score ≥ as' ∧
        cand.overlap ≥ max (1/10) (mo * (6/10)))) := by
  constructor
  · intro f g forced corpusLen ms mo mc as' ac h
    have hfold := foldl_acquireStep_congr f g
      (rangeInt (forced.getD 0) (min (corpusLen : Int) (forced.getD 0 + 40)))
      (by
        intro i hi
        rw [mem_rangeInt] at hi
        exact h i hi.1 hi.2)
      ⟨-1, none, -1, -1⟩
    simp only [acquireSelection]
    rw [hfold]
  · intro f forced corpusLen ms mo mc as' ac idx cand q conf h
    simp only [acquireSelection] at h
    set st := (rangeInt (forced.getD 0)
      (min ((corpusLen : Nat) : Int) (forced.getD 0 + 40))).foldl
      (acquireStep f) ⟨-1, none, -1, -1⟩ with hst
    split at h
    · split at h
      · rename_i top heq
        split at h
        · rename_i hvalid
          split at h
          · rename_i quality heq3
            injection h with h2
            injection h2 with h3 h4
            injection h4 with h5 h6
            injection h6 with h7 h8
            subst h5
            subst h7
            rcases candidateIsValid_sound top st.secondScore ms mo (max (7/10) mc)
              as' ac quality heq3 with ⟨hq, hs, ho, _⟩ | ⟨hq, hs, ho, _⟩
            · exact Or.inl ⟨hq, hs, ho⟩
            · exact Or.inr ⟨hq, hs, ho⟩
          · cases h
        · cases h
      · cases h
    · cases h

/-- A candidate that passes only the ambiguous thresholds under the
    default configuration. -/
def c3Candidate : CandidateEvidence :=
  { adjusted_score := 75, score := 75, overlap := 12/100, penalty := 0,
    source := "segment", normalized_text := [], start_time := 0, end_time := 0,
    word_indices := [] }

def c3Evaluate : Int → Option CandidateEvidence :=
  fun i => if i = 0 then some c3Candidate else none

/-- C3 counterexample: under the default configuration (min_score 78,
    min_overlap 0.18, min_confidence 0.62, ambiguous 74 / 0.5) the
    acquisition branch accepts a first candidate whose score is below
    min_score and whose confidence is below 0.70 — acquisition is not
    restricted to the strict high triple. -/
theorem c3_selection_eval :
    acquireSelection c3Evaluate none 1 78 (18/100) (62/100) 74 (1/2) =
      some (0, c3Candidate, "ambiguous", 343/500) := by
  have hrange : rangeInt ((none : Option Int).getD 0)
      (min ((1:Nat) : Int) ((none : Option Int).getD 0 + 40)) = [0] := by decide
  simp only [acquireSelection, hrange, List.foldl_cons, List.foldl_nil]
  norm_num [acquireStep, c3Evaluate, c3Candidate, candidateIsValid,
    candidateConfidence, roundQ3, pyRound]

theorem acquisition_accepts_ambiguous :
    acquireSelection c3Evaluate none 1 78 (18/100) (62/100) 74 (1/2) =
      some (0, c3Candidate, "ambiguous", 343/500) ∧
    c3Candidate.adjusted_score < 78 ∧
    candidateConfidence c3Candidate.adjusted_score 0 c3Candidate.overlap < 7/10 := by
  refine ⟨c3_selection_eval, by norm_num [c3Candidate], ?_⟩
  norm_num [candidateConfidence, c3Candidate]

theorem acquireSelection_window_and_acceptance_witness :
    ("ambiguous" = "high" ∧ c3Candidate.adjusted_score ≥ 78 ∧
      c3Candidate.overlap ≥ 18/100) ∨
    ("ambiguous" = "ambiguous" ∧ c3Candidate.adjusted_score ≥ 74 ∧
      c3Candidate.overlap ≥ max (1/10) ((18/100) * (6/10))) :=
  acquireSelection_window_and_acceptance.2 c3Evaluate none 1 78 (18/100)
    (62/100) 74 (1/2) 0 c3Candidate "ambiguous" (343/500) c3_selection_eval

/-- The probe list of the normal-forward branch:
    range(expected - 1, expected + 3) with expected = pointer + 1, where
    the pointer is last_matched_index. -/
def normalForwardProbes (last_matched_index : Int) : List Int :=
  let expected := last_matched_index + 1
  rangeInt (expected - 1) (expected + 3)

/-- The normal_candidates map built by the normal-forward branch of
    match_quran_markers: evaluate_index on every probed index. -/
def normalForwardCandidates (evaluate : Int → Option CandidateEvidence)
    (last_matched_index : Int) : List (Int × CandidateEvidence) :=
  (normalForwardProbes last_matched_index).filterMap
    (fun i => (evaluate i).map (fun c => (i, c)))

/-- C5 counterexample: with pointer = 5 the code probes corpus index 8 =
    pointer + 3 and does not probe 4 = pointer - 1, so the evaluated
    window is not the claimed set pointer-1 .. pointer+2. -/
theorem normalForward_probes_off_by_one :
    (8:Int) ∈ normalForwardProbes 5 ∧ ¬((4:Int) ∈ normalForwardProbes 5) := by
  decide

/-- C5 amended: past acquisition the normal-forward branch evaluates
    exactly the corpus indices pointer .. pointer + 3 (equivalently
    expected - 1 .. expected + 2 for expected = pointer + 1), where the
    pointer is the last matched corpus linear index. -/
theorem normalForward_window_exact :
    ∀ (evaluate : Int → Option CandidateEvidence) (p i : Int)
      (c : CandidateEvidence),
      (i, c) ∈ normalForwardCandidates evaluate p ↔
        (p ≤ i ∧ i ≤ p + 3 ∧ evaluate i = some c) := by
  intro evaluate p i c
  unfold normalForwardCandidates normalForwardProbes
  rw [List.mem_filterMap]
  constructor
  · rintro ⟨j, hj, hj2⟩
    rw [mem_rangeInt] at hj
    cases hev : evaluate j with
    | none => rw [hev] at hj2; cases hj2
    | some cc =>
      rw [hev] at hj2
      simp only [Option.map_some', Option.some.injEq, Prod.mk.injEq] at hj2
      obtain ⟨rfl, rfl⟩ := hj2
      exact ⟨by omega, by omega, hev⟩
  · rintro ⟨h1, h2, h3⟩
    refine ⟨i, by rw [mem_rangeInt]; omega, by rw [h3]; rfl⟩


/-! ## Marker post-processing (claim C4) -/

/-- The Marker dataclass from types.py (fields used by the pipeline
    passes; arabic_text/english_text omitted as they are never read by
    the embedded passes). -/
structure Marker where
  time : Int
  surah : String
  ayah : Int
  surah_number : Option Int := none
  juz : Option Int := none
  quality : String := "high"
  reciter : Option String := none
  confidence : Option ℚ := none
  start_time : Option Int := none
  end_time : Option Int := none
  matched_token_indices : Option (List (List Nat)) := none
deriving DecidableEq

/-- Python `int(marker.start_time or marker.time)`: start_time of None
    or 0 falls back to time. -/
def startOrTime (m : Marker) : Int :=
  match m.start_time with
  | some v => if v = 0 then m.time else v
  | none => m.time

/-- _quality_rank (quran.py 1234-1243). -/
def qualityRank (q : String) : Int :=
  if q = "manual" then 4
  else if q = "high" then 3
  else if q = "ambiguous" then 2
  else if q = "inferred" then 1
  else 0

/-- The sort key of _prune_unrealistic_progression:
    (time, surah_number or 0, ayah), compared lexicographically. -/
def markerLe (a b : Marker) : Prop :=
  a.time < b.time ∨
    (a.time = b.time ∧
      (a.surah_number.getD 0 < b.surah_number.getD 0 ∨
        (a.surah_number.getD 0 = b.surah_number.getD 0 ∧ a.ayah ≤ b.ayah)))

instance markerLeDec : DecidableRel markerLe := fun a b => by
  unfold markerLe; exact inferInstance

/-- Loop state of _prune_unrealistic_progression: the kept list and the
    last_index_by_surah dict. -/
structure PruneState where
  kept : List Marker
  lastIdx : String → Option Nat

/-- One iteration of the _prune_unrealistic_progression loop
    (quran.py 1922-1954).  The inner none case is unreachable under the
    loop invariant (the dict always indexes into kept). -/
def pruneStep (st : PruneState) (marker : Marker) : PruneState :=
  match st.lastIdx marker.surah with
  | none =>
    ⟨st.kept ++ [marker],
     fun s => if s = marker.surah then some st.kept.length else st.lastIdx s⟩
  | some last_idx =>
    match st.kept[last_idx]? with
    | none => st
    | some previous =>
      let prev_time := startOrTime previous
      let curr_time := startOrTime marker
      let dt := curr_time - prev_time
      let da := marker.ayah - previous.ayah
      if da ≤ 0 then st
      else if dt ≤ 1 ∧ da > 1 then
        if qualityRank marker.quality > qualityRank previous.quality then
          ⟨st.kept.set last_idx marker, st.lastIdx⟩
        else st
      else
        let allowed_jump := max 3 (max 0 dt / 3 + 2)
        if da > allowed_jump ∧ qualityRank marker.quality < 4 then st
        else
          ⟨st.kept ++ [marker],
           fun s => if s = marker.surah then some st.kept.length else st.lastIdx s⟩

/-- _prune_unrealistic_progression (quran.py 1911-1956); Python sorted()
    is a stable sort by key, embedded as insertion sort on the same key. -/
def pruneUnrealisticProgression (markers : List Marker) : List Marker :=
  if markers.length < 3 then markers
  else ((List.insertionSort markerLe markers).foldl pruneStep ⟨[], fun _ => none⟩).kept

theorem qualityRank_le_four (q : String) : qualityRank q ≤ 4 := by
  unfold qualityRank; split_ifs <;> norm_num

theorem startOrTime_eq (p : Marker) (h : p.start_time = some p.time) :
    startOrTime p = p.time := by
  simp only [startOrTime, h]
  split <;> rfl

theorem mem_set_of_ne {α : Type} {l : List α} {i : Nat} {p m a : α}
    (hget : l[i]? = some p) (hne : p ≠ m) (hm : m ∈ l) : m ∈ l.set i a := by
  induction l generalizing i with
  | nil => cases hm
  | cons x xs ih =>
    cases i with
    | zero =>
      simp only [List.getElem?_cons_zero, Option.some.injEq] at hget
      subst hget
      rcases List.mem_cons.mp hm with rfl | hm2
      · exact absurd rfl hne
      · exact List.mem_cons_of_mem _ hm2
    | succ j =>
      simp only [List.getElem?_cons_succ] at hget
      rcases List.mem_cons.mp hm with rfl | hm2
      · exact List.mem_cons_self _ _
      · exact List.mem_cons_of_mem _ (ih hget hm2)

theorem pruneStep_preserves_manual {m : Marker} (hq : m.quality = "manual")
    (st : PruneState) (marker : Marker) (hm : m ∈ st.kept) :
    m ∈ (pruneStep st marker).kept := by
  simp only [pruneStep]
  split
  · exact List.mem_append_left _ hm
  · split
    · exact hm
    · rename_i previous heq2
      split
      · exact hm
      · split
        · split
          · rename_i hrank
            have hpne : previous ≠ m := by
              intro he
              have h4 : qualityRank marker.quality ≤ 4 := qualityRank_le_four _
              have h4m : qualityRank "manual" = 4 := by decide
              rw [he, hq, h4m] at hrank
              omega
            exact mem_set_of_ne heq2 hpne hm
          · exact hm
        · split
          · exact hm
          · exact List.mem_append_left _ hm

theorem foldl_pruneStep_preserves_manual {m : Marker} (hq : m.quality = "manual") :
    ∀ (l : List Marker) (st : PruneState), m ∈ st.kept →
      m ∈ (l.foldl pruneStep st).kept := by
  intro l
  induction l with
  | nil => intro st hm; exact hm
  | cons x xs ih =>
    intro st hm
    exact ih _ (pruneStep_preserves_manual hq st x hm)

def PruneInv (ms : List Marker) (st : PruneState) : Prop :=
  (∀ s i, st.lastIdx s = some i → ∃ q, st.kept[i]? = some q ∧ q.surah = s) ∧
  (∀ q ∈ st.kept, q ∈ ms)

theorem pruneStep_inv {ms : List Marker} {st : PruneState} {marker : Marker}
    (hmk : marker ∈ ms) (hinv : PruneInv ms st) :
    PruneInv ms (pruneStep st marker) := by
  obtain ⟨hidx, hsub⟩ := hinv
  have happend : PruneInv ms
      ⟨st.kept ++ [marker],
       fun s => if s = marker.surah then some st.kept.length else st.lastIdx s⟩ := by
    constructor
    · intro s i h
      dsimp only at h ⊢
      by_cases hs : s = marker.surah
      · rw [if_pos hs] at h
        injection h with h
        subst h
        exact ⟨marker, List.getElem?_concat_length _ _, hs.symm⟩
      · rw [if_neg hs] at h
        obtain ⟨q, hq1, hq2⟩ := hidx s i h
        exact ⟨q, by
          rw [List.getElem?_append_left (List.getElem?_eq_some.mp hq1).1]
          exact hq1, hq2⟩
    · intro q hqm
      rcases List.mem_append.mp hqm with h | h
      · exact hsub q h
      · rw [List.mem_singleton.mp h]; exact hmk
  simp only [pruneStep]
  split
  · exact happend
  · rename_i idx heq1
    split
    · exact ⟨hidx, hsub⟩
    · rename_i previous heq2
      split
      · exact ⟨hidx, hsub⟩
      · split
        · split
          · constructor
            · intro s i h
              obtain ⟨q, hq1, hq2⟩ := hidx s i h
              by_cases hi : i = idx
              · subst hi
                refine ⟨marker, ?_, ?_⟩
                · rw [List.getElem?_set_self]
                  exact (List.getElem?_eq_some.mp hq1).1
                · obtain ⟨q', hq1', hq2'⟩ := hidx marker.surah i heq1
                  rw [hq1] at hq1'
                  injection hq1' with hq1'
                  rw [← hq2', ← hq1']
                  exact hq2
              · exact ⟨q,
                  by rw [List.getElem?_set_ne (fun he => hi he.symm)]; exact hq1,
                  hq2⟩
            · intro q hqm
              rcases List.mem_or_eq_of_mem_set hqm with h | h
              · exact hsub q h
              · rw [h]; exact hmk
          · exact ⟨hidx, hsub⟩
        · split
          · exact ⟨hidx, hsub⟩
          · exact happend

theorem foldl_pruneStep_inv {ms : List Marker} :
    ∀ (l : List Marker) (st : PruneState), (∀ x ∈ l, x ∈ ms) → PruneInv ms st →
      PruneInv ms (l.foldl pruneStep st) := by
  intro l
  induction l with
  | nil => intro st _ hinv; exact hinv
  | cons x xs ih =>
    intro st hl hinv
    exact ih _ (fun y hy => hl y (List.mem_cons_of_mem _ hy))
      (pruneStep_inv (hl x (List.mem_cons_self _ _)) hinv)

theorem pruneStep_adds_manual {ms : List Marker} {st : PruneState} {m : Marker}
    (hinv : PruneInv ms st) (hq : m.quality = "manual")
    (hst : ∀ p ∈ ms, p.start_time = some p.time)
    (hadv : ∀ p ∈ ms, p.surah = m.surah →
      p = m ∨ (p.ayah < m.ayah ∧ p.time + 2 ≤ m.time))
    (hm : m ∈ ms) :
    m ∈ (pruneStep st m).kept := by
  obtain ⟨hidx, hsub⟩ := hinv
  simp only [pruneStep]
  split
  · exact List.mem_append_right _ (List.mem_singleton.mpr rfl)
  · rename_i idx heq1
    split
    · rename_i heq2
      exfalso
      obtain ⟨q, hq1, _⟩ := hidx m.surah idx heq1
      rw [heq2] at hq1
      cases hq1
    · rename_i previous heq2
      have hpm : previous ∈ ms := hsub previous (List.getElem?_mem heq2)
      have hps : previous.surah = m.surah := by
        obtain ⟨q, hq1, hq2⟩ := hidx m.surah idx heq1
        rw [heq2] at hq1
        injection hq1 with hq1
        rw [hq1]; exact hq2
      have h4m : qualityRank "manual" = 4 := by decide
      rcases hadv previous hpm hps with he | ⟨hay, htm⟩
      · have hmk : m ∈ st.kept := he ▸ List.getElem?_mem heq2
        split
        · exact hmk
        · split
          · split
            · rename_i hrank
              exfalso
              have h4 : qualityRank m.quality ≤ 4 := qualityRank_le_four _
              rw [he, hq, h4m] at hrank
              omega
            · exact hmk
          · split
            · exact hmk
            · exact List.mem_append_left _ hmk
      · have e1 : startOrTime m = m.time := startOrTime_eq m (hst m hm)
        have e2 : startOrTime previous = previous.time :=
          startOrTime_eq previous (hst previous hpm)
        rw [if_neg (by omega)]
        rw [if_neg (by rw [e1, e2]; omega)]
        rw [if_neg (by
          rw [hq, h4m]
          rintro ⟨-, hlt⟩
          omega)]
        exact List.mem_append_right _ (List.mem_singleton.mpr rfl)

/-- C4 amended: the prune-unrealistic-progression post-processor can
    drop Manual-quality markers (see the counterexample), but it keeps
    every Manual marker that strictly advances the ayah with at least
    two seconds elapsed relative to every other same-surah marker in the
    input: the pace guard (da > max(3, dt//3 + 2)) never removes a
    Manual marker, and a kept Manual marker is never replaced. -/
theorem prune_keeps_advancing_manual (ms : List Marker) (m : Marker)
    (hmem : m ∈ ms) (hq : m.quality = "manual")
    (hst : ∀ p ∈ ms, p.start_time = some p.time)
    (hadv : ∀ p ∈ ms, p.surah = m.surah →
      p = m ∨ (p.ayah < m.ayah ∧ p.time + 2 ≤ m.time)) :
    m ∈ pruneUnrealisticProgression ms := by
  unfold pruneUnrealisticProgression
  split
  · exact hmem
  · have hperm : List.Perm (List.insertionSort markerLe ms) ms :=
      List.perm_insertionSort _ _
    have hmem2 : m ∈ List.insertionSort markerLe ms := hperm.mem_iff.mpr hmem
    obtain ⟨l1, l2, hsplit⟩ := List.append_of_mem hmem2
    have hsubl : ∀ x ∈ List.insertionSort markerLe ms, x ∈ ms :=
      fun x hx => hperm.mem_iff.mp hx
    rw [hsplit, List.foldl_append]
    have hinv1 : PruneInv ms ((l1.foldl pruneStep ⟨[], fun _ => none⟩)) := by
      refine foldl_pruneStep_inv l1 _ ?_ ?_
      · intro x hx
        exact hsubl x (by rw [hsplit]; exact List.mem_append_left _ hx)
      · exact ⟨(fun s i h => nomatch h), (fun q hq => nomatch hq)⟩
    rw [List.foldl_cons]
    exact foldl_pruneStep_preserves_manual hq l2 _
      (pruneStep_adds_manual hinv1 hq hst hadv hmem)

def c4m1 : Marker :=
  { time := 10, surah := "S", ayah := 5, quality := "manual",
    start_time := some 10, end_time := some 10 }

def c4m2 : Marker :=
  { time := 30, surah := "S", ayah := 5, quality := "manual",
    start_time := some 30, end_time := some 30 }

def c4m3 : Marker :=
  { time := 40, surah := "S", ayah := 6, quality := "high",
    start_time := some 40, end_time := some 40 }

/-- C4 counterexample: a Manual marker whose ayah does not advance on
    the previously kept same-surah marker (da <= 0) is dropped
    unconditionally — quality is not consulted on that path. -/
theorem prune_drops_manual_repeat :
    c4m2.quality = "manual" ∧ c4m2 ∈ [c4m1, c4m2, c4m3] ∧
    pruneUnrealisticProgression [c4m1, c4m2, c4m3] = [c4m1, c4m3] ∧
    c4m2 ∉ pruneUnrealisticProgression [c4m1, c4m2, c4m3] := by
  refine ⟨rfl, by decide, by decide, by decide⟩

def c4mw : Marker :=
  { time := 50, surah := "S", ayah := 7, quality := "manual",
    start_time := some 50, end_time := some 50 }

theorem prune_keeps_advancing_manual_witness :
    c4mw ∈ pruneUnrealisticProgression [c4m1, c4m3, c4mw] :=
  prune_keeps_advancing_manual [c4m1, c4m3, c4mw] c4mw (by decide) (by decide)
    (by decide) (by decide)

/-! ## Marker time overrides (claim C2) -/

/-- The JUZ_STARTS table (quran.py 999-1030). -/
def JUZ_STARTS : List (Int × Int × Int) :=
  [(1, 1, 1), (2, 2, 142), (3, 2, 253), (4, 3, 93), (5, 4, 24), (6, 4, 148),
   (7, 5, 82), (8, 6, 111), (9, 7, 88), (10, 8, 41), (11, 9, 93), (12, 11, 6),
   (13, 12, 53), (14, 15, 1), (15, 17, 1), (16, 18, 75), (17, 21, 1),
   (18, 23, 1), (19, 25, 21), (20, 27, 56), (21, 29, 46), (22, 33, 31),
   (23, 36, 28), (24, 39, 32), (25, 41, 47), (26, 46, 1), (27, 51, 31),
   (28, 58, 1), (29, 67, 1), (30, 78, 1)]

/-- The scan of get_juz_for_ayah over reversed(JUZ_STARTS). -/
def juzScan : List (Int × Int × Int) → Int → Int → Int
  | [], _, _ => 1
  | (juz, ss, sa) :: rest, s, a =>
    if s > ss then juz
    else if s = ss ∧ a ≥ sa then juz
    else juzScan rest s a

/-- get_juz_for_ayah (quran.py 1033-1039). -/
def get_juz_for_ayah (s a : Int) : Int := juzScan JUZ_STARTS.reverse s a

/-- A marker_overrides item after JSON decoding: absent keys are none. -/
structure OverrideItem where
  part : Option Int := none
  surah_number : Option Int := none
  ayah : Option Int := none
  start_time : Option Int := none
  end_time : Option Int := none
deriving DecidableEq

/-- An entry of the applied list returned by _apply_marker_time_overrides. -/
structure AppliedOverride where
  surah_number : Int
  ayah : Int
  part : Option Int
  start_time : Int
  end_time : Int
  inserted : Bool
deriving DecidableEq

/-- The update-first-matching-marker loop of _apply_marker_time_overrides
    (pipeline.py 527-544): none when no marker matches (surah_number, ayah). -/
def updateFirstMarker (sn ay ts te : Int) : List Marker → Option (List Marker)
  | [] => none
  | m :: rest =>
    if m.surah_number = some sn ∧ m.ayah = ay then
      some ({ m with
                start_time := some ts, time := ts, end_time := some te,
                quality := "manual", confidence := some 1 } :: rest)
    else (updateFirstMarker sn ay ts te rest).map (fun ms2 => m :: ms2)

/-- One marker_overrides item of _apply_marker_time_overrides
    (pipeline.py 500-572): part filter, required keys, update-or-append. -/
def processOverrideItem (part : Option Int)
    (corpus_lookup : Int → Int → Option String)
    (st : List Marker × List AppliedOverride) (item : OverrideItem) :
    List Marker × List AppliedOverride :=
  if (match item.part with
      | some ip => decide (ip ≠ part.getD 0)
      | none => false) then st
  else
    match item.surah_number, item.ayah, item.start_time with
    | some sn, some ay, some ts =>
      let te := max ts (item.end_time.getD ts)
      match updateFirstMarker sn ay ts te st.1 with
      | some ms2 => (ms2, st.2 ++ [⟨sn, ay, part, ts, te, false⟩])
      | none =>
        (st.1 ++ [{
            time := ts, surah := ((corpus_lookup sn ay).getD ""), ayah := ay,
            surah_number := some sn, juz := some (get_juz_for_ayah sn ay),
            quality := "manual", confidence := some 1,
            start_time := some ts, end_time := some te }],
         st.2 ++ [⟨sn, ay, part, ts, te, true⟩])
    | _, _, _ => st

/-- _apply_marker_time_overrides (pipeline.py 468-579) after JSON
    decoding: bails out when the marker list or the override list is
    empty, otherwise processes each item and re-sorts iff something was
    applied.  The I/O bail-outs (missing file, JSON error, missing day)
    are subsumed by the empty item list. -/
def applyMarkerTimeOverrides (part : Option Int)
    (corpus_lookup : Int → Int → Option String)
    (markers : List Marker) (items : List OverrideItem) :
    List Marker × List AppliedOverride :=
  if markers = [] ∨ items = [] then (markers, [])
  else
    let res := items.foldl (processOverrideItem part corpus_lookup) (markers, [])
    if res.2 = [] then res
    else (List.insertionSort markerLe res.1, res.2)

def c2Item : OverrideItem :=
  { part := none, surah_number := some 2, ayah := some 5,
    start_time := some 100, end_time := some 120 }

/-- C2 counterexample: with an empty matcher output the override pass
    returns immediately — a well-formed override whose ayah is in the
    corpus is silently ignored, so no Manual marker is produced. -/
theorem override_skipped_when_no_markers :
    applyMarkerTimeOverrides (some 1) (fun _ _ => some "Corpus") [] [c2Item] =
      ([], []) ∧
    c2Item.surah_number = some 2 ∧ c2Item.ayah = some 5 ∧
    c2Item.start_time = some 100 :=
  ⟨rfl, rfl, rfl, rfl⟩

theorem updateFirstMarker_mem (sn ay ts te : Int) :
    ∀ (ms ms2 : List Marker), updateFirstMarker sn ay ts te ms = some ms2 →
      ∃ m ∈ ms2, m.surah_number = some sn ∧ m.ayah = ay ∧
        m.quality = "manual" ∧ m.start_time = some ts ∧ m.time = ts ∧
        m.confidence = some 1 ∧ m.end_time = some te := by
  intro ms
  induction ms with
  | nil => intro ms2 h; cases h
  | cons m rest ih =>
    intro ms2 h
    simp only [updateFirstMarker] at h
    split at h
    · rename_i hcond
      injection h with h
      subst h
      exact ⟨_, List.mem_cons_self _ _, hcond.1, hcond.2, rfl, rfl, rfl, rfl, rfl⟩
    · cases hrec : updateFirstMarker sn ay ts te rest with
      | none => rw [hrec] at h; cases h
      | some ms3 =>
        rw [hrec] at h
        simp only [Option.map_some', Option.some.injEq] at h
        subst h
        obtain ⟨m2, hm2, hrest⟩ := ih ms3 hrec
        exact ⟨m2, List.mem_cons_of_mem _ hm2, hrest⟩

/-- C2 amended: when the matcher produced at least one marker, a
    well-formed override item (part absent or matching, surah_number,
    ayah and start_time present) yields a marker for that
    (surah_number, ayah) with quality manual, start_time and time equal
    to the override start, confidence 1, and end_time at least
    start_time — by updating the first matching marker or appending a
    new one.  With an empty marker list the pass does nothing (see the
    counterexample), and process_day applies this pass before
    fill_override_surah_range. -/
theorem applyOverride_single_item (part : Option Int)
    (lookup : Int → Int → Option String) (markers : List Marker)
    (item : OverrideItem) (sn ay ts : Int)
    (hne : markers ≠ [])
    (hpart : item.part = none ∨ item.part = some (part.getD 0))
    (hsn : item.surah_number = some sn) (hay : item.ayah = some ay)
    (hts : item.start_time = some ts) :
    ∃ m ∈ (applyMarkerTimeOverrides part lookup markers [item]).1,
      m.surah_number = some sn ∧ m.ayah = ay ∧ m.quality = "manual" ∧
      m.start_time = some ts ∧ m.time = ts ∧ m.confidence = some 1 ∧
      ∃ te, m.end_time = some te ∧ ts ≤ te := by
  unfold applyMarkerTimeOverrides
  rw [if_neg (by simp [hne])]
  simp only [List.foldl_cons, List.foldl_nil]
  have hskip : (match item.part with
      | some ip => decide (ip ≠ part.getD 0)
      | none => false) = false := by
    rcases hpart with h | h
    · rw [h]
    · rw [h]; simp
  set te := max ts (item.end_time.getD ts) with hte
  have hres : processOverrideItem part lookup (markers, []) item =
      (match updateFirstMarker sn ay ts te markers with
       | some ms2 => (ms2, [(⟨sn, ay, part, ts, te, false⟩ : AppliedOverride)])
       | none =>
         (markers ++ [{
             time := ts, surah := ((lookup sn ay).getD ""), ayah := ay,
             surah_number := some sn, juz := some (get_juz_for_ayah sn ay),
             quality := "manual", confidence := some 1,
             start_time := some ts, end_time := some te }],
          [(⟨sn, ay, part, ts, te, true⟩ : AppliedOverride)])) := by
    simp only [processOverrideItem, hskip, Bool.false_eq_true, if_false, hsn, hay, hts]
    rfl
  rw [hres]
  cases hupd : updateFirstMarker sn ay ts te markers with
  | some ms2 =>
    simp only
    rw [if_neg (by simp)]
    obtain ⟨m, hm, hflds⟩ := updateFirstMarker_mem sn ay ts te markers ms2 hupd
    refine ⟨m, ?_, hflds.1, hflds.2.1, hflds.2.2.1, hflds.2.2.2.1, hflds.2.2.2.2.1,
      hflds.2.2.2.2.2.1, te, hflds.2.2.2.2.2.2, le_max_left _ _⟩
    exact (List.perm_insertionSort markerLe ms2).mem_iff.mpr hm
  | none =>
    simp only
    rw [if_neg (by simp)]
    refine ⟨{
        time := ts, surah := ((lookup sn ay).getD ""), ayah := ay,
        surah_number := some sn, juz := some (get_juz_for_ayah sn ay),
        quality := "manual", confidence := some 1,
        start_time := some ts, end_time := some te }, ?_, rfl, rfl, rfl, rfl,
      rfl, rfl, te, rfl, le_max_left _ _⟩
    exact (List.perm_insertionSort markerLe _).mem_iff.mpr
      (List.mem_append_right _ (List.mem_cons_self _ _))

def c2Marker : Marker :=
  { time := 0, surah := "Corpus", ayah := 1, surah_number := some 2,
    quality := "high", start_time := some 0, end_time := some 0 }

theorem applyOverride_single_item_witness :
    ∃ m ∈ (applyMarkerTimeOverrides (some 1) (fun _ _ => some "Corpus")
        [c2Marker] [c2Item]).1,
      m.surah_number = some 2 ∧ m.ayah = 5 ∧ m.quality = "manual" ∧
      m.start_time = some 100 ∧ m.time = 100 ∧ m.confidence = some 1 ∧
      ∃ te, m.end_time = some te ∧ 100 ≤ te :=
  applyOverride_single_item (some 1) (fun _ _ => some "Corpus") [c2Marker]
    c2Item 2 5 100 (by simp) (Or.inl rfl) rfl rfl rfl

/-! ## Onset aligner (claim C9) -/


/-- TranscriptWord (types.py): stop embeds the Python field `end`. -/
structure TranscriptWord where
  start : ℚ
  stop : ℚ
  text : List Char
deriving DecidableEq

/-- TokenAlignmentResult (quran.py 123-128). -/
structure TokenAlignmentResult where
  start_time : Int
  end_time : Int
  matched_token_indices : List (Nat × Nat)
  alignment_score : ℚ
deriving DecidableEq

/-- gap_penalty of _align_tokens. -/
def GAP_PENALTY : ℚ := -45/100

/-- mismatch_penalty of _align_tokens. -/
def MISMATCH_PENALTY : ℚ := -55/100

/-- match_threshold of _align_tokens. -/
def MATCH_THRESHOLD : ℚ := 62/100

/-- _token_similarity (quran.py 216-220), with rapidfuzz partial_ratio
    as a parameter. -/
def tokenSimilarity (partial_ratio : List Char → List Char → ℚ)
    (a b : List Char) : ℚ :=
  if a.isEmpty || b.isEmpty then 0 else partial_ratio a b / 100

/-- One row of the Needleman-Wunsch fill of _align_tokens: cell j+1 of
    row i+1 from the previous row and the current row prefix. -/
def buildRowCell (sim_i : Nat → ℚ) (prev : Nat → ℚ × String)
    (rowStart : ℚ × String) : Nat → ℚ × String
  | 0 => rowStart
  | j + 1 =>
    let s := sim_i j
    let dg := if MATCH_THRESHOLD ≤ s then s else MISMATCH_PENALTY
    let diag := (prev j).1 + dg
    let up := (prev (j + 1)).1 + GAP_PENALTY
    let left := (buildRowCell sim_i prev rowStart j).1 + GAP_PENALTY
    let best := max diag (max up left)
    (best, if best = diag then "diag" else if best = up then "up" else "left")

/-- The score/move matrix of _align_tokens (quran.py 232-258), row by
    row; row 0 is the gap baseline. -/
def alignRow (sim : Nat → Nat → ℚ) : Nat → Nat → ℚ × String
  | 0 => fun j => match j with
    | 0 => ((0 : ℚ), "")
    | j + 1 => (((j : ℚ) + 1) * GAP_PENALTY, "left")
  | i + 1 => buildRowCell (sim i) (alignRow sim i) (((i : ℚ) + 1) * GAP_PENALTY, "up")

/-- The backtracking loop of _align_tokens (quran.py 260-278), emitting
    matched pairs in visit order (decreasing indices). -/
def backtrackGo (move : Nat → Nat → String) (sim : Nat → Nat → ℚ) :
    Nat → Nat → List (Nat × Nat × ℚ)
  | 0, 0 => []
  | i + 1, 0 => if move (i + 1) 0 = "up" then backtrackGo move sim i 0 else []
  | 0, j + 1 => backtrackGo move sim 0 j
  | i + 1, j + 1 =>
    if move (i + 1) (j + 1) = "diag" then
      (if MATCH_THRESHOLD ≤ sim i j then [(i, j, sim i j)] else []) ++
        backtrackGo move sim i j
    else if move (i + 1) (j + 1) = "up" then backtrackGo move sim i (j + 1)
    else backtrackGo move sim (i + 1) j

/-- The similarity matrix of _align_tokens on two token lists. -/
def alignSim (partial_ratio : List Char → List Char → ℚ)
    (ts cs : List (List Char)) : Nat → Nat → ℚ := fun i j =>
  tokenSimilarity partial_ratio (ts.getD i []) (cs.getD j [])

/-- The move matrix of _align_tokens on two token lists. -/
def alignMove (partial_ratio : List Char → List Char → ℚ)
    (ts cs : List (List Char)) : Nat → Nat → String := fun i j =>
  (alignRow (alignSim partial_ratio ts cs) i j).2

/-- _align_tokens (quran.py 223-286): mapping, average matched
    similarity and coverage of the shorter sequence. -/
def alignTokens (partial_ratio : List Char → List Char → ℚ)
    (ts cs : List (List Char)) : List (Nat × Nat) × ℚ × ℚ :=
  if ts.isEmpty || cs.isEmpty then ([], 0, 0)
  else
    let pairs := (backtrackGo (alignMove partial_ratio ts cs)
      (alignSim partial_ratio ts cs) ts.length cs.length).reverse
    if pairs.isEmpty then ([], 0, 0)
    else
      (pairs.map (fun p => (p.1, p.2.1)),
       (pairs.map (fun p => p.2.2)).sum / (pairs.length : ℚ),
       (pairs.length : ℚ) / ((max 1 (min ts.length cs.length) : ℕ) : ℚ))

/-- _tokenize_transcript_words (quran.py 289-315): parallel token,
    start and end lists; an empty selected-index list means no filter. -/
def tokenizeTranscriptWords (words : List TranscriptWord)
    (sel : Option (List Nat)) : List (List Char) × List ℚ × List ℚ :=
  let keep : Nat → Bool := fun i =>
    match sel with
    | some l => if l.isEmpty then true else decide (i ∈ l)
    | none => true
  let items := (words.enum.filterMap (fun wi =>
    if keep wi.1 then
      let normalized := normalizeArabic false wi.2.text
      if normalized.isEmpty then none
      else
        let pieces := splitWs normalized
        if pieces.isEmpty then none
        else some (pieces.map (fun p => (p, wi.2.start, wi.2.stop)))
    else none)).flatten
  (items.map (fun x => x.1), items.map (fun x => x.2.1), items.map (fun x => x.2.2))

/-- One match_forms iteration of _align_entry_to_words
    (quran.py 352-379). -/
def alignFormStep (partial_ratio : List Char → List Char → ℚ)
    (tokens : List (List Char)) (starts ends : List ℚ)
    (st : Option TokenAlignmentResult × ℚ) (form : List Char) :
    Option TokenAlignmentResult × ℚ :=
  let canonical := splitWs form
  if canonical.length < 2 then st
  else
    let r := alignTokens partial_ratio tokens canonical
    if r.1.isEmpty then st
    else
      let score := (6/10) * r.2.2 + (4/10) * r.2.1
      if r.2.2 < 2/10 ∨ r.2.1 < 6/10 then st
      else
        let ft := (r.1.headD (0, 0)).1
        let lt := (r.1.getLastD (0, 0)).1
        let start_time := pyRound (starts.getD ft 0)
        let en := pyRound (ends.getD lt 0)
        let end_time := if en < start_time then start_time else en
        let result : TokenAlignmentResult :=
          ⟨start_time, end_time, r.1, roundQ3 score⟩
        if score > st.2 then (some result, score) else st

/-- _align_entry_to_words (quran.py 340-381). -/
def alignEntryToWords (partial_ratio : List Char → List Char → ℚ)
    (words : List TranscriptWord) (entry : AyahEntry)
    (sel : Option (List Nat)) : Option TokenAlignmentResult :=
  let t := tokenizeTranscriptWords words sel
  if t.1.length < 2 then none
  else (entry.match_forms.foldl
    (alignFormStep partial_ratio t.1 t.2.1 t.2.2) (none, -1)).1

theorem backtrackGo_zero_left (move : Nat → Nat → String)
    (sim : Nat → Nat → ℚ) : ∀ j, backtrackGo move sim 0 j = [] := by
  intro j
  induction j with
  | zero => simp [backtrackGo]
  | succ j ih => rw [backtrackGo, ih]

theorem backtrackGo_zero_right (move : Nat → Nat → String)
    (sim : Nat → Nat → ℚ) : ∀ i, backtrackGo move sim i 0 = [] := by
  intro i
  induction i with
  | zero => simp [backtrackGo]
  | succ i ih =>
    rw [backtrackGo, ih]
    split <;> rfl

theorem backtrackGo_bounds (move : Nat → Nat → String) (sim : Nat → Nat → ℚ) :
    ∀ i j p, p ∈ backtrackGo move sim i j → p.1 < i ∧ p.2.1 < j := by
  intro i
  induction i with
  | zero =>
    intro j p hp
    rw [backtrackGo_zero_left] at hp
    cases hp
  | succ i ih =>
    intro j
    induction j with
    | zero =>
      intro p hp
      rw [backtrackGo_zero_right] at hp
      cases hp
    | succ j ihj =>
      intro p hp
      rw [backtrackGo] at hp
      split at hp
      · simp only [List.mem_append] at hp
        rcases hp with hp | hp
        · split at hp
          · rcases List.mem_singleton.mp hp with rfl
            exact ⟨Nat.lt_succ_self _, Nat.lt_succ_self _⟩
          · cases hp
        · have := ih j p hp
          omega
      · split at hp
        · have := ih (j + 1) p hp
          omega
        · have := ihj p hp
          omega

theorem backtrackGo_pairwise (move : Nat → Nat → String) (sim : Nat → Nat → ℚ) :
    ∀ i j, List.Pairwise (fun p q : Nat × Nat × ℚ => q.1 < p.1 ∧ q.2.1 < p.2.1)
      (backtrackGo move sim i j) := by
  intro i
  induction i with
  | zero =>
    intro j
    rw [backtrackGo_zero_left]
    exact List.Pairwise.nil
  | succ i ih =>
    intro j
    induction j with
    | zero =>
      rw [backtrackGo_zero_right]
      exact List.Pairwise.nil
    | succ j ihj =>
      rw [backtrackGo]
      split
      · split
        · refine List.pairwise_cons.mpr ⟨?_, ih j⟩
          intro q hq
          exact backtrackGo_bounds move sim i j q hq
        · simp only [List.nil_append]
          exact ih j
      · split
        · exact ih (j + 1)
        · exact ihj

theorem alignTokens_inv (partial_ratio : List Char → List Char → ℚ)
    (ts cs : List (List Char)) (mp : List (Nat × Nat)) (avg cov : ℚ)
    (h : alignTokens partial_ratio ts cs = (mp, avg, cov)) (hne : ¬mp = []) :
    List.Pairwise (fun p q : Nat × Nat => p.1 < q.1 ∧ p.2 < q.2) mp ∧
      cov = (mp.length : ℚ) / ((max 1 (min ts.length cs.length) : ℕ) : ℚ) := by
  simp only [alignTokens] at h
  split at h
  · injection h with h1 h2
    exact absurd h1.symm hne
  · split at h
    · injection h with h1 h2
      exact absurd h1.symm hne
    · injection h with h1 h2
      injection h2 with h2 h3
      subst h1
      subst h3
      constructor
      · rw [List.pairwise_map]
        rw [List.pairwise_reverse]
        have := backtrackGo_pairwise (alignMove partial_ratio ts cs)
          (alignSim partial_ratio ts cs) ts.length cs.length
        exact this.imp (fun hpq => hpq)
      · rw [List.length_map, List.length_reverse]

theorem pairwise_le_lastD :
    ∀ (d : Nat × Nat) (mp : List (Nat × Nat)),
      List.Pairwise (fun p q : Nat × Nat => p.1 < q.1 ∧ p.2 < q.2) mp →
      ∀ p ∈ mp, p.1 ≤ (mp.getLastD d).1 := by
  intro d mp
  induction mp generalizing d with
  | nil => intro _ p hp; cases hp
  | cons a l ih =>
    intro hp p hp2
    rcases List.pairwise_cons.mp hp with ⟨ha, hl⟩
    rw [List.getLastD_cons]
    rcases List.mem_cons.mp hp2 with rfl | hmem
    · rcases List.mem_cons.mp (List.getLastD_mem_cons l p) with he | hmem2
      · rw [he]
      · exact le_of_lt (ha _ hmem2).1
    · exact ih a hl p hmem

theorem pairwise_head_last {mp : List (Nat × Nat)}
    (hp : List.Pairwise (fun p q : Nat × Nat => p.1 < q.1 ∧ p.2 < q.2) mp) :
    ∀ p ∈ mp, (mp.headD (0, 0)).1 ≤ p.1 ∧ p.1 ≤ (mp.getLastD (0, 0)).1 := by
  intro p hp2
  refine ⟨?_, pairwise_le_lastD (0, 0) mp hp p hp2⟩
  cases mp with
  | nil => cases hp2
  | cons a l =>
    rw [List.headD_cons]
    rcases List.mem_cons.mp hp2 with rfl | hmem
    · exact le_refl _
    · exact le_of_lt ((List.pairwise_cons.mp hp).1 p hmem).1

theorem alignFormStep_post (partial_ratio : List Char → List Char → ℚ)
    (tokens : List (List Char)) (starts ends : List ℚ)
    (FORMS : List (List Char)) (st : Option TokenAlignmentResult × ℚ)
    (form : List Char) (hf : form ∈ FORMS)
    (hst : st.1 = none ∨ ∃ r, st.1 = some r ∧
      ∃ f2 ∈ FORMS, ∃ mapping avg cov,
        alignTokens partial_ratio tokens (splitWs f2) = (mapping, avg, cov) ∧
        ¬mapping = [] ∧ 6/10 ≤ avg ∧ 2/10 ≤ cov ∧
        r.matched_token_indices = mapping ∧
        r.start_time = pyRound (starts.getD ((mapping.headD (0, 0)).1) 0) ∧
        r.end_time = max r.start_time
          (pyRound (ends.getD ((mapping.getLastD (0, 0)).1) 0))) :
    (alignFormStep partial_ratio tokens starts ends st form).1 = none ∨
    ∃ r, (alignFormStep partial_ratio tokens starts ends st form).1 = some r ∧
      ∃ f2 ∈ FORMS, ∃ mapping avg cov,
        alignTokens partial_ratio tokens (splitWs f2) = (mapping, avg, cov) ∧
        ¬mapping = [] ∧ 6/10 ≤ avg ∧ 2/10 ≤ cov ∧
        r.matched_token_indices = mapping ∧
        r.start_time = pyRound (starts.getD ((mapping.headD (0, 0)).1) 0) ∧
        r.end_time = max r.start_time
          (pyRound (ends.getD ((mapping.getLastD (0, 0)).1) 0)) := by
  simp only [alignFormStep]
  split
  · exact hst
  · split
    · exact hst
    · rename_i hmaplen
      split
      · exact hst
      · rename_i haccept
        split
        · rename_i hscore
          refine Or.inr ⟨_, rfl, form, hf, (alignTokens partial_ratio tokens (splitWs form)).1,
            (alignTokens partial_ratio tokens (splitWs form)).2.1,
            (alignTokens partial_ratio tokens (splitWs form)).2.2, rfl, ?_, ?_, ?_, rfl, rfl, ?_⟩
          · rw [← List.isEmpty_iff]
            simp only [Bool.not_eq_true] at hmaplen
            rw [hmaplen]
            simp
          · push_neg at haccept
            exact haccept.2
          · push_neg at haccept
            exact haccept.1
          · simp only
            omega
        · exact hst

theorem foldl_alignFormStep_post (partial_ratio : List Char → List Char → ℚ)
    (tokens : List (List Char)) (starts ends : List ℚ)
    (FORMS : List (List Char)) :
    ∀ (l : List (List Char)) (st : Option TokenAlignmentResult × ℚ),
      (∀ f ∈ l, f ∈ FORMS) →
      (st.1 = none ∨ ∃ r, st.1 = some r ∧
        ∃ f2 ∈ FORMS, ∃ mapping avg cov,
          alignTokens partial_ratio tokens (splitWs f2) = (mapping, avg, cov) ∧
          ¬mapping = [] ∧ 6/10 ≤ avg ∧ 2/10 ≤ cov ∧
          r.matched_token_indices = mapping ∧
          r.start_time = pyRound (starts.getD ((mapping.headD (0, 0)).1) 0) ∧
          r.end_time = max r.start_time
            (pyRound (ends.getD ((mapping.getLastD (0, 0)).1) 0))) →
      ((l.foldl (alignFormStep partial_ratio tokens starts ends) st).1 = none ∨
       ∃ r, (l.foldl (alignFormStep partial_ratio tokens starts ends) st).1 = some r ∧
        ∃ f2 ∈ FORMS, ∃ mapping avg cov,
          alignTokens partial_ratio tokens (splitWs f2) = (mapping, avg, cov) ∧
          ¬mapping = [] ∧ 6/10 ≤ avg ∧ 2/10 ≤ cov ∧
          r.matched_token_indices = mapping ∧
          r.start_time = pyRound (starts.getD ((mapping.headD (0, 0)).1) 0) ∧
          r.end_time = max r.start_time
            (pyRound (ends.getD ((mapping.getLastD (0, 0)).1) 0))) := by
  intro l
  induction l with
  | nil => intro st _ hst; exact hst
  | cons f l2 ih =>
    intro st hl hst
    exact ih _ (fun g hg => hl g (List.mem_cons_of_mem _ hg))
      (alignFormStep_post partial_ratio tokens starts ends FORMS st f
        (hl f (List.mem_cons_self _ _)) hst)

/-- C9 confirmed: whenever _align_entry_to_words returns a result, some
    match form was aligned with nonempty matched pairs, average matched
    similarity at least 0.6 and coverage at least 0.2 of the shorter
    token sequence; the matched pairs are strictly increasing in both
    components, the result records them, its start_time is the rounded
    start of the earliest matched transcript token and its end_time the
    rounded end of the latest matched token clamped to
    end_time >= start_time. -/
theorem alignEntryToWords_postcondition (partial_ratio : List Char → List Char → ℚ)
    (words : List TranscriptWord) (entry : AyahEntry) (sel : Option (List Nat))
    (r : TokenAlignmentResult)
    (h : alignEntryToWords partial_ratio words entry sel = some r) :
    2 ≤ (tokenizeTranscriptWords words sel).1.length ∧
    ∃ form ∈ entry.match_forms, ∃ mapping avg cov,
      alignTokens partial_ratio (tokenizeTranscriptWords words sel).1
        (splitWs form) = (mapping, avg, cov) ∧
      ¬mapping = [] ∧ 6/10 ≤ avg ∧ 2/10 ≤ cov ∧
      cov = (mapping.length : ℚ) /
        ((max 1 (min (tokenizeTranscriptWords words sel).1.length
          (splitWs form).length) : ℕ) : ℚ) ∧
      r.matched_token_indices = mapping ∧
      List.Pairwise (fun p q : Nat × Nat => p.1 < q.1 ∧ p.2 < q.2) mapping ∧
      (∀ p ∈ mapping, (mapping.headD (0, 0)).1 ≤ p.1 ∧
        p.1 ≤ (mapping.getLastD (0, 0)).1) ∧
      r.start_time = pyRound
        ((tokenizeTranscriptWords words sel).2.1.getD ((mapping.headD (0, 0)).1) 0) ∧
      r.end_time = max r.start_time
        (pyRound ((tokenizeTranscriptWords words sel).2.2.getD
          ((mapping.getLastD (0, 0)).1) 0)) := by
  simp only [alignEntryToWords] at h
  split at h
  · cases h
  · rename_i hlen
    constructor
    · omega
    · have hfold := foldl_alignFormStep_post partial_ratio
        (tokenizeTranscriptWords words sel).1 (tokenizeTranscriptWords words sel).2.1
        (tokenizeTranscriptWords words sel).2.2 entry.match_forms
        entry.match_forms (none, -1) (fun f hf => hf) (Or.inl rfl)
      rcases hfold with hnone | ⟨r2, hr2, form, hform, mapping, avg, cov, halign,
        hne, havg, hcov, hmap, hstart, hend⟩
      · rw [h] at hnone
        cases hnone
      · rw [h] at hr2
        injection hr2 with hr2
        subst hr2
        obtain ⟨hpw, hcoveq⟩ := alignTokens_inv partial_ratio _ _ mapping avg cov
          halign hne
        exact ⟨form, hform, mapping, avg, cov, halign, hne, havg, hcov, hcoveq,
          hmap, hpw, pairwise_head_last hpw, hstart, hend⟩

def c9partial : List Char → List Char → ℚ := fun _ _ => 100

def c9w1 : TranscriptWord := ⟨0, 1, "كتاب".toList⟩

def c9w2 : TranscriptWord := ⟨2, 3, "كريم".toList⟩

def c9tokens : List (List Char) := ["كتاب".toList, "كريم".toList]

def c9entry : AyahEntry :=
  { surah_number := 1, surah := "S", ayah := 1, text := "كتاب كريم".toList,
    normalized := "كتاب كريم".toList, match_forms := ["كتاب كريم".toList] }

theorem c9_eval :
    alignEntryToWords c9partial [c9w1, c9w2] c9entry none =
      some ⟨0, 3, [(0, 0), (1, 1)], 1⟩ := by
  have h00 : alignSim c9partial c9tokens c9tokens 0 0 = 100/100 := rfl
  have h01 : alignSim c9partial c9tokens c9tokens 0 1 = 100/100 := rfl
  have h10 : alignSim c9partial c9tokens c9tokens 1 0 = 100/100 := rfl
  have h11 : alignSim c9partial c9tokens c9tokens 1 1 = 100/100 := rfl
  have hback : backtrackGo (alignMove c9partial c9tokens c9tokens)
      (alignSim c9partial c9tokens c9tokens) 2 2 =
      [(1, 1, 100/100), (0, 0, 100/100)] := by
    norm_num [backtrackGo, alignMove, alignRow, buildRowCell, h00, h01, h10, h11,
      GAP_PENALTY, MISMATCH_PENALTY, MATCH_THRESHOLD, Prod.ext_iff]
  have hlen : c9tokens.length = 2 := rfl
  have hemp : c9tokens.isEmpty = false := rfl
  have halign : alignTokens c9partial c9tokens c9tokens = ([(0, 0), (1, 1)], 1, 1) := by
    norm_num [alignTokens, hlen, hemp, hback, Prod.ext_iff]
  have htok : tokenizeTranscriptWords [c9w1, c9w2] none =
      (c9tokens, [0, 2], [1, 3]) := rfl
  have hsplit : splitWs ['ك', 'ت', 'ا', 'ب', ' ', 'ك', 'ر', 'ي', 'م'] = c9tokens := rfl
  have hpy0 : pyRound ((0 : ℚ)) = 0 := by norm_num [pyRound]
  have hpy3 : pyRound ((3 : ℚ)) = 3 := by norm_num [pyRound]
  have hr1 : roundQ3 1 = 1 := by norm_num [roundQ3, pyRound]
  have hb : (1 : Nat) < ([1, 3] : List ℚ).length := by norm_num
  have hg : (([1, 3] : List ℚ))[1] = 3 := rfl
  norm_num [alignEntryToWords, htok, hlen, alignFormStep, c9entry, hsplit, halign,
    hpy0, hpy3, hr1, hg, Prod.ext_iff]

theorem alignEntryToWords_postcondition_witness :
    2 ≤ (tokenizeTranscriptWords [c9w1, c9w2] none).1.length :=
  (alignEntryToWords_postcondition c9partial [c9w1, c9w2] c9entry none
    ⟨0, 3, [(0, 0), (1, 1)], 1⟩ c9_eval).1

/-! ## Surah coverage fill (claim C1) -/

/-- TranscriptSegment (types.py): stop embeds the Python field `end`;
    the word list is not consulted by the embedded passes. -/
structure TranscriptSegment where
  start : ℚ
  stop : ℚ
  text : List Char
deriving DecidableEq

/-- ARABIC_ANCHOR_STOPWORDS (quran.py 71-87). -/
def ARABIC_ANCHOR_STOPWORDS : List (List Char) :=
  ["و".toList, "ف".toList, "ثم".toList, "لا".toList, "ما".toList, "من".toList,
   "في".toList, "على".toList, "الى".toList, "إلى".toList, "ب".toList,
   "الذي".toList, "الذين".toList, "هذا".toList, "ذلك".toList]

/-- The non-stopword token set of _token_overlap (Python set builds from
    the split, deduplicated). -/
def overlapTokens (s : List Char) : List (List Char) :=
  ((splitWs s).filter (fun t => !decide (t ∈ ARABIC_ANCHOR_STOPWORDS))).dedup

/-- _token_overlap (quran.py 782-789). -/
def tokenOverlap (query reference : List Char) : ℚ :=
  let q := overlapTokens query
  let r := overlapTokens reference
  if q.isEmpty || r.isEmpty then 0
  else ((q.filter (fun t => decide (t ∈ r))).length : ℚ) / ((max 1 r.length : ℕ) : ℚ)

/-- _is_muqattaat_entry (quran.py 478-482): compact membership is tested
    through the MUQATTAAT_SPOKEN_FORMS key table. -/
def isMuqattaatEntry (entry : AyahEntry) : Bool :=
  if entry.ayah ≠ 1 then false
  else (muqattaatSpokenForms (entry.normalized.filter (fun c => c ≠ ' '))).isSome

/-- _has_muqattaat_phrase_match (quran.py 485-508), token_set_ratio as a
    parameter. -/
def hasMuqattaatPhraseMatch (token_set_ratio : List Char → List Char → ℚ)
    (normalized_text : List Char) (entry : AyahEntry) : Bool :=
  if normalized_text.isEmpty then false
  else
    let text_tokens := splitWs normalized_text
    if text_tokens.isEmpty then false
    else entry.match_forms.any (fun form =>
      let form_tokens := splitWs form
      if form_tokens.isEmpty then false
      else
        (decide (form_tokens.length ≤ text_tokens.length) &&
          decide (List.IsInfix form_tokens text_tokens)) ||
        (decide (text_tokens.length ≤ 14) &&
          decide (token_set_ratio normalized_text form ≥ 95)))

/-- _score_segment_against_entry (quran.py 511-522). -/
def scoreSegmentAgainstEntry
    (token_set_ratio partial_ratio : List Char → List Char → ℚ)
    (normalized_segment : List Char) (entry : AyahEntry) : ℚ × ℚ :=
  entry.match_forms.foldl (fun st candidate =>
    let score := (75/100) * token_set_ratio normalized_segment candidate +
      (25/100) * partial_ratio normalized_segment candidate
    if score > st.1 then (score, tokenOverlap normalized_segment candidate) else st)
    (-1, 0)

/-- _has_weak_local_support (quran.py 848-876): false when the entry is
    absent from the corpus. -/
def hasWeakLocalSupport
    (token_set_ratio partial_ratio : List Char → List Char → ℚ)
    (transcript_segments : List TranscriptSegment) (entry : Option AyahEntry)
    (window_start window_end : Int) (min_score min_overlap : ℚ) : Bool :=
  match entry with
  | none => false
  | some e =>
    if window_end ≤ window_start then false
    else
      let is_muqattaat := isMuqattaatEntry e
      let top := transcript_segments.foldl (fun st seg =>
        if decide (seg.stop < (window_start : ℚ)) ||
            decide (seg.start > (window_end : ℚ)) then st
        else
          let normalized := normalizeArabic false seg.text
          if normalized.length < 3 then st
          else if is_muqattaat &&
              !hasMuqattaatPhraseMatch token_set_ratio normalized e then st
          else
            let so := scoreSegmentAgainstEntry token_set_ratio partial_ratio
              normalized e
            if so.1 > st.1 then so else st) (-1, 0)
      decide (top.1 ≥ min_score) && decide (top.2 ≥ min_overlap)

/-- _contains_fatiha_reset_between (quran.py 792-799) at margin 3. -/
def containsFatihaResetBetween (reset_times : List ℚ) (left right : Int) : Bool :=
  if reset_times.isEmpty then false
  else
    let lo := min left right + 3
    let hi := max left right - 3
    if hi ≤ lo then false
    else reset_times.any (fun t => decide ((lo : ℚ) ≤ t) && decide (t ≤ (hi : ℚ)))

/-- _defer_inferred_time_after_fatiha (quran.py 878-891) at hold 26. -/
def deferInferredTimeAfterFatiha (inferred_time : Int)
    (fatiha_reset_times : List ℚ) : Int :=
  if fatiha_reset_times.isEmpty then inferred_time
  else fatiha_reset_times.foldl (fun adjusted reset_time =>
    let reset := pyRound reset_time
    if reset - 8 ≤ adjusted ∧ adjusted ≤ reset + 26 then max adjusted (reset + 26)
    else adjusted) inferred_time

/-- _is_anchor_quality (quran.py 1246-1247). -/
def isAnchorQuality (q : String) : Bool :=
  q == "high" || q == "ambiguous" || q == "manual"

/-- The ayah-key order for sorted(ayah_map.items()). -/
def ayahKeyLe (a b : Int × Marker) : Prop := a.1 ≤ b.1

instance ayahKeyLeDec : DecidableRel ayahKeyLe := fun a b =>
  inferInstanceAs (Decidable (a.1 ≤ b.1))

def ratLe (a b : ℚ) : Prop := a ≤ b

instance ratLeDec : DecidableRel ratLe := fun a b =>
  inferInstanceAs (Decidable (a ≤ b))

/-- _estimate_step_seconds (quran.py 1256-1271) at default step 8. -/
def estimateStepSeconds (ayahMap : List (Int × Marker)) : Int :=
  let pairs := List.insertionSort ayahKeyLe ayahMap
  let deltas := (pairs.zip pairs.tail).filterMap (fun pq =>
    let ayah_gap : Int := pq.2.1 - pq.1.1
    let time_gap : Int := pq.2.2.time - pq.1.2.time
    if ayah_gap ≤ 0 ∨ time_gap ≤ 0 then none
    else some ((time_gap : ℚ) / (ayah_gap : ℚ)))
  if deltas.isEmpty then 8
  else
    let sorted := List.insertionSort ratLe deltas
    max 4 (min 20 (pyRound (sorted.getD (sorted.length / 2) 0)))

def markerTimeLe (a b : Marker) : Prop := a.time ≤ b.time

instance markerTimeLeDec : DecidableRel markerTimeLe := fun a b =>
  inferInstanceAs (Decidable (a.time ≤ b.time))

/-- ayah_map[marker.ayah] insertion/upgrade of _fill_surah_coverage_markers
    (quran.py 1296-1305), preserving dict key order. -/
def upsertAyahMap (m : Marker) : List (Int × Marker) → List (Int × Marker)
  | [] => [(m.ayah, m)]
  | (a, ex) :: rest =>
    if a = m.ayah then
      if qualityRank m.quality > qualityRank ex.quality then (a, m) :: rest
      else if qualityRank m.quality = qualityRank ex.quality ∧ m.time < ex.time then
        (a, m) :: rest
      else (a, ex) :: rest
    else (a, ex) :: upsertAyahMap m rest

/-- surah_map.setdefault(marker.surah, ...) preserving dict key order. -/
def upsertSurahMap (m : Marker) :
    List (String × List (Int × Marker)) → List (String × List (Int × Marker))
  | [] => [(m.surah, [(m.ayah, m)])]
  | (s, am) :: rest =>
    if s = m.surah then (s, upsertAyahMap m am) :: rest
    else (s, am) :: upsertSurahMap m rest

/-- The surah_map build of _fill_surah_coverage_markers: markers sorted
    (stably) by time, folded into the nested insertion-ordered maps. -/
def buildSurahMap (markers : List Marker) : List (String × List (Int × Marker)) :=
  (List.insertionSort markerTimeLe markers).foldl (fun acc m => upsertSurahMap m acc) []

def lookupMarker (am : List (Int × Marker)) (a : Int) : Option Marker :=
  List.lookup a am

/-- The keyword configuration of _fill_surah_coverage_markers with its
    Python defaults. -/
structure CoverageConfig where
  weak_support_score : ℚ := 62
  weak_support_overlap : ℚ := 8/100
  enforce_weak_support : Bool := true
  max_bridge_gap_ayahs : Int := 60
  max_bridge_gap_seconds : Int := 2400
  max_one_sided_extrapolation_ayahs : Int := 5
  min_bridge_step_seconds : ℚ := 4
  max_bridge_step_seconds : ℚ := 28

/-- The three-way anchor interpolation branch of
    _fill_surah_coverage_markers (quran.py 1331-1379): none encodes
    `continue`; otherwise the inferred time and the final left/right
    ayah and marker bindings. -/
def fillBranch (cfg : CoverageConfig) (fatiha_reset_times : List ℚ)
    (am : List (Int × Marker)) (known : List Int) (step_seconds : Int)
    (ayah : Int) :
    Option (Int × Option Int × Option Int × Option Marker × Option Marker) :=
  let left_ayahs := known.filter (fun a => decide (a < ayah))
  let right_ayahs := known.filter (fun a => decide (a > ayah))
  let left_ayah := left_ayahs.getLast?
  let right_ayah := right_ayahs.head?
  let anchorAt : Int → Bool := fun a =>
    match lookupMarker am a with
    | some m => isAnchorQuality m.quality
    | none => false
  let left_anchor := (left_ayahs.filter anchorAt).getLast?
  let right_anchor := (right_ayahs.filter anchorAt).head?
  match left_anchor, right_anchor with
  | some la, some ra =>
    match lookupMarker am la, lookupMarker am ra with
    | some lm, some rm =>
      let span_ayahs := ra - la
      let span_secs := rm.time - lm.time
      if span_ayahs ≤ 0 then none
      else if span_ayahs > cfg.max_bridge_gap_ayahs then none
      else if span_secs ≤ 0 ∨ span_secs > cfg.max_bridge_gap_seconds then none
      else if !fatiha_reset_times.isEmpty &&
          containsFatihaResetBetween fatiha_reset_times lm.time rm.time then none
      else if (span_secs : ℚ) / (span_ayahs : ℚ) < cfg.min_bridge_step_seconds then
        none
      else if (span_secs : ℚ) / (span_ayahs : ℚ) > cfg.max_bridge_step_seconds then
        none
      else if !(isAnchorQuality lm.quality && isAnchorQuality rm.quality) then none
      else
        let ratio := ((ayah - la : Int) : ℚ) / ((max 1 span_ayahs : Int) : ℚ)
        let inferred := if span_secs > 0 then
            pyRound ((lm.time : ℚ) + (span_secs : ℚ) * ratio)
          else lm.time + (ayah - la) * step_seconds
        some (inferred, some la, some ra, some lm, some rm)
    | _, _ => none
  | some la, none =>
    match lookupMarker am la with
    | some lm =>
      if !isAnchorQuality lm.quality then none
      else if ayah - la > cfg.max_one_sided_extrapolation_ayahs then none
      else
        let inferred := lm.time + (ayah - la) * step_seconds
        if !fatiha_reset_times.isEmpty &&
            containsFatihaResetBetween fatiha_reset_times lm.time inferred then none
        else some (inferred, some la, right_ayah, some lm, none)
    | none => none
  | none, some ra =>
    match lookupMarker am ra with
    | some rm =>
      if !isAnchorQuality rm.quality then none
      else if ra - ayah > cfg.max_one_sided_extrapolation_ayahs then none
      else
        let inferred := max 0 (rm.time - (ra - ayah) * step_seconds)
        if !fatiha_reset_times.isEmpty &&
            containsFatihaResetBetween fatiha_reset_times inferred rm.time then none
        else some (inferred, left_ayah, some ra, none, some rm)
    | none => none
  | none, none => none

/-- The fatiha-aware adjustment of the inferred time
    (quran.py 1382-1389). -/
def adjustInferredTime (it0 : Int) (fatiha_reset_times : List ℚ)
    (left_marker right_marker : Option Marker) : Int :=
  if fatiha_reset_times.isEmpty then it0
  else
    let a := deferInferredTimeAfterFatiha it0 fatiha_reset_times
    let b := match left_marker with
      | some lm => max (lm.time + 1) a
      | none => a
    match right_marker with
    | some rm => min (rm.time - 1) b
    | none => b

/-- One missing-ayah iteration of _fill_surah_coverage_markers
    (quran.py 1319-1421): branch selection, fatiha adjustment, corpus
    lookup, weak-support gate, and the inferred Marker. -/
def fillGapMarker (token_set_ratio partial_ratio : List Char → List Char → ℚ)
    (entry_lookup : String → Int → Option AyahEntry)
    (transcript_segments : Option (List TranscriptSegment))
    (fatiha_reset_times : List ℚ) (cfg : CoverageConfig)
    (surah : String) (am : List (Int × Marker)) (known : List Int)
    (step_seconds : Int) (ayah : Int) : Option Marker :=
  match fillBranch cfg fatiha_reset_times am known step_seconds ayah with
  | none => none
  | some (it0, left_ayah, right_ayah, left_marker, right_marker) =>
    let it1 := adjustInferredTime it0 fatiha_reset_times left_marker right_marker
    let entry := entry_lookup surah ayah
    let left_reciter := match left_ayah with
      | some a => (lookupMarker am a).bind (fun m => m.reciter)
      | none => none
    let right_reciter := match right_ayah with
      | some a => (lookupMarker am a).bind (fun m => m.reciter)
      | none => none
    let reciter := match left_reciter with
      | some s => if s = "" then right_reciter else some s
      | none => right_reciter
    let surah_number := match entry with
      | some e => some e.surah_number
      | none => (lookupMarker am (known.headD 0)).bind (fun m => m.surah_number)
    if cfg.enforce_weak_support && transcript_segments.isSome &&
        !hasWeakLocalSupport token_set_ratio partial_ratio
          (transcript_segments.getD []) entry (max 0 (it1 - 16)) (it1 + 16)
          cfg.weak_support_score cfg.weak_support_overlap then none
    else
      some { time := max 0 it1, surah := surah, ayah := ayah,
             surah_number := surah_number,
             juz := some (get_juz_for_ayah
               (match surah_number with
                | some v => if v = 0 then 1 else v
                | none => 1) ayah),
             quality := "inferred", reciter := reciter,
             confidence := some (56/100),
             start_time := some (max 0 it1), end_time := some (max 0 it1) }

/-- _fill_surah_coverage_markers (quran.py 1282-1423): the inferred
    coverage markers for every missing ayah between each surah's first
    and last known ayah. -/
def fillSurahCoverageMarkers
    (token_set_ratio partial_ratio : List Char → List Char → ℚ)
    (existing_markers : List Marker)
    (entry_lookup : String → Int → Option AyahEntry)
    (transcript_segments : Option (List TranscriptSegment))
    (fatiha_reset_times : List ℚ) (cfg : CoverageConfig) : List Marker :=
  (buildSurahMap existing_markers).flatMap (fun sam =>
    if sam.2.isEmpty then []
    else
      let known := (List.insertionSort ayahKeyLe sam.2).map (fun p => p.1)
      let step_seconds := estimateStepSeconds sam.2
      (rangeInt (known.headD 0) (known.getLastD 0 + 1)).filterMap (fun ayah =>
        if (lookupMarker sam.2 ayah).isSome then none
        else fillGapMarker token_set_ratio partial_ratio entry_lookup
          transcript_segments fatiha_reset_times cfg sam.1 sam.2 known
          step_seconds ayah))

/-- C1 amended: with the weak-support gate active (enforce_weak_support
    true and transcript segments present) every marker emitted by the
    surah coverage filler has its (surah, ayah) in the corpus entry
    lookup, because _has_weak_local_support returns False for a missing
    entry.  With the gate off — as in the final post-fill call of
    match_quran_markers — the pass can synthesize markers for ayat with
    no corpus entry (see the counterexample), so the unconditional
    corpus-isolation claim is false. -/
theorem coverage_fill_requires_corpus_entry
    (token_set_ratio partial_ratio : List Char → List Char → ℚ)
    (existing_markers : List Marker)
    (entry_lookup : String → Int → Option AyahEntry)
    (segs : List TranscriptSegment) (fatiha_reset_times : List ℚ)
    (cfg : CoverageConfig) (hcfg : cfg.enforce_weak_support = true)
    (m : Marker)
    (hm : m ∈ fillSurahCoverageMarkers token_set_ratio partial_ratio
      existing_markers entry_lookup (some segs) fatiha_reset_times cfg) :
    ∃ e, entry_lookup m.surah m.ayah = some e := by
  simp only [fillSurahCoverageMarkers, List.mem_flatMap] at hm
  obtain ⟨sam, hsam, hm2⟩ := hm
  split at hm2
  · cases hm2
  · rw [List.mem_filterMap] at hm2
    obtain ⟨ayah, hayah, heq⟩ := hm2
    split at heq
    · cases heq
    · simp only [fillGapMarker] at heq
      split at heq
      · cases heq
      · split at heq
        · cases heq
        · rename_i hgate
          injection heq with heq
          subst heq
          rw [hcfg] at hgate
          simp only [Option.isSome_some, Bool.true_and, Bool.and_eq_true,
            Bool.not_eq_true, Bool.not_eq_false] at hgate
          cases hent : entry_lookup sam.1 ayah with
          | none =>
            rw [hent] at hgate
            simp only [hasWeakLocalSupport, Bool.not_false] at hgate
            simp at hgate
          | some e => exact ⟨e, rfl⟩

def c1mA : Marker :=
  { time := 10, surah := "S", ayah := 2, surah_number := some 5,
    quality := "high", start_time := some 10, end_time := some 10 }

def c1mB : Marker :=
  { time := 40, surah := "S", ayah := 4, surah_number := some 5,
    quality := "high", start_time := some 40, end_time := some 40 }

def c1m3 : Marker :=
  { time := 25, surah := "S", ayah := 3, surah_number := some 5,
    juz := some 6, quality := "inferred", confidence := some (56/100),
    start_time := some 25, end_time := some 25 }

def c1zero : List Char → List Char → ℚ := fun _ _ => 0

def c1hundred : List Char → List Char → ℚ := fun _ _ => 100

def c1entry : AyahEntry :=
  { surah_number := 5, surah := "S", ayah := 3, text := "كتاب".toList,
    normalized := "كتاب".toList, match_forms := ["كتاب".toList] }

def c1lookup : String → Int → Option AyahEntry :=
  fun s a => if s = "S" ∧ a = 3 then some c1entry else none

def c1seg : TranscriptSegment := ⟨20, 30, "كتاب".toList⟩

theorem c1_step_eval : estimateStepSeconds [(2, c1mA), (4, c1mB)] = 15 := by
  have hkl : ayahKeyLe (2, c1mA) (4, c1mB) := by norm_num [ayahKeyLe]
  have hat : c1mA.time = 10 := rfl
  have hbt : c1mB.time = 40 := rfl
  have h3 : List.insertionSort ratLe [(15 : ℚ)] = [15] := rfl
  have hpy15 : pyRound ((15 : ℚ)) = 15 := by norm_num [pyRound]
  norm_num [estimateStepSeconds, hkl, hat, hbt, h3, hpy15]
  exact fun h => Option.noConfusion h

theorem c1_branch_eval (cfg : CoverageConfig)
    (h60 : cfg.max_bridge_gap_ayahs = 60)
    (h2400 : cfg.max_bridge_gap_seconds = 2400)
    (h4 : cfg.min_bridge_step_seconds = 4)
    (h28 : cfg.max_bridge_step_seconds = 28) :
    fillBranch cfg [] [(2, c1mA), (4, c1mB)] [2, 4] 15 3 =
      some (25, some 2, some 4, some c1mA, some c1mB) := by
  have hlk2 : lookupMarker [(2, c1mA), (4, c1mB)] 2 = some c1mA := rfl
  have hlk4 : lookupMarker [(2, c1mA), (4, c1mB)] 4 = some c1mB := rfl
  have hanchA : isAnchorQuality c1mA.quality = true := rfl
  have hanchB : isAnchorQuality c1mB.quality = true := rfl
  have hat : c1mA.time = 10 := rfl
  have hbt : c1mB.time = 40 := rfl
  have hpy25 : pyRound ((25 : ℚ)) = 25 := by norm_num [pyRound]
  norm_num [fillBranch, hlk2, hlk4, hanchA, hanchB, hat, hbt, h60, h2400, h4,
    h28, hpy25]

def c1cfgOff : CoverageConfig := { enforce_weak_support := false }

def c1cfgOn : CoverageConfig := {}

theorem c1_gap_cex_eval :
    fillGapMarker c1zero c1zero (fun _ _ => none) none [] c1cfgOff "S"
      [(2, c1mA), (4, c1mB)] [2, 4] 15 3 = some c1m3 := by
  have hlk2 : lookupMarker [(2, c1mA), (4, c1mB)] 2 = some c1mA := rfl
  have hlk4 : lookupMarker [(2, c1mA), (4, c1mB)] 4 = some c1mB := rfl
  have hadj : adjustInferredTime 25 [] (some c1mA) (some c1mB) = 25 := rfl
  have hrA : c1mA.reciter = none := rfl
  have hrB : c1mB.reciter = none := rfl
  have hsnA : c1mA.surah_number = some 5 := rfl
  have hjuz : get_juz_for_ayah 5 3 = 6 := rfl
  have hen : c1cfgOff.enforce_weak_support = false := rfl
  norm_num [fillGapMarker, c1_branch_eval c1cfgOff rfl rfl rfl rfl, hadj, hlk2,
    hlk4, hrA, hrB, hsnA, hjuz, hen, c1m3]

theorem c1_fill_cex_eval :
    fillSurahCoverageMarkers c1zero c1zero [c1mA, c1mB] (fun _ _ => none) none
      [] c1cfgOff = [c1m3] := by
  have hmap : buildSurahMap [c1mA, c1mB] = [("S", [(2, c1mA), (4, c1mB)])] := rfl
  have hkl : ayahKeyLe (2, c1mA) (4, c1mB) := by norm_num [ayahKeyLe]
  have hrange : rangeInt 2 5 = [2, 3, 4] := by decide
  have hlk2 : lookupMarker [(2, c1mA), (4, c1mB)] 2 = some c1mA := rfl
  have hlk3 : lookupMarker [(2, c1mA), (4, c1mB)] 3 = none := rfl
  have hlk4 : lookupMarker [(2, c1mA), (4, c1mB)] 4 = some c1mB := rfl
  norm_num [fillSurahCoverageMarkers, hmap, hkl, hrange, c1_step_eval, hlk2,
    hlk3, hlk4, c1_gap_cex_eval, List.isEmpty_cons, List.filterMap_cons, List.filterMap_nil,
    List.cons_ne_nil]

/-- C1 counterexample: with the weak-support gate off — exactly the
    post-fill configuration of match_quran_markers (quran.py 3768-3779,
    enforce_weak_support=False) — the coverage filler synthesizes an
    inferred marker for surah S ayah 3 although the entry lookup has no
    entry at all, so its (surah, ayah) is not in the corpus. -/
theorem coverage_fill_emits_unbacked_marker :
    c1m3 ∈ fillSurahCoverageMarkers c1zero c1zero [c1mA, c1mB]
      (fun _ _ => none) none [] c1cfgOff ∧
    (fun (_ : String) (_ : Int) => (none : Option AyahEntry)) c1m3.surah
      c1m3.ayah = none ∧
    c1m3.quality = "inferred" ∧ c1m3.ayah = 3 := by
  refine ⟨?_, rfl, rfl, rfl⟩
  rw [c1_fill_cex_eval]
  exact List.mem_singleton.mpr rfl

theorem c1_support_eval :
    hasWeakLocalSupport c1hundred c1hundred [c1seg] (some c1entry) 9 41 62
      (2/25) = true := by
  have hovt : overlapTokens ['ك', 'ت', 'ا', 'ب'] = [['ك', 'ت', 'ا', 'ب']] := rfl
  have hflt : (([['ك', 'ت', 'ا', 'ب']] : List (List Char)).filter
      (fun t => decide (t ∈ ([['ك', 'ت', 'ا', 'ب']] : List (List Char))))).length =
      1 := rfl
  have hov : tokenOverlap ['ك', 'ت', 'ا', 'ب'] ['ك', 'ت', 'ا', 'ب'] = 1 := by
    norm_num [tokenOverlap, hovt, hflt]
  have hscore : scoreSegmentAgainstEntry c1hundred c1hundred ['ك', 'ت', 'ا', 'ب']
      c1entry = (100, 1) := by
    norm_num [scoreSegmentAgainstEntry, c1entry, c1hundred, hov, Prod.ext_iff]
  have hmq : isMuqattaatEntry c1entry = false := rfl
  have hnorm : normalizeArabic false ['ك', 'ت', 'ا', 'ب'] = ['ك', 'ت', 'ا', 'ب'] := rfl
  have hnl : (['ك', 'ت', 'ا', 'ب'] : List Char).length = 4 := rfl
  have hd1 : decide ((30 : ℚ) < 9) = false := decide_eq_false (by norm_num)
  have hd2 : decide ((20 : ℚ) > 41) = false := decide_eq_false (by norm_num)
  have hd3 : decide ((100 : ℚ) ≥ 62) = true := decide_eq_true (by norm_num)
  have hd4 : decide ((1 : ℚ) ≥ 2/25) = true := decide_eq_true (by norm_num)
  norm_num [hasWeakLocalSupport, c1seg, hmq, hnorm, hnl, hscore, hd1, hd2,
    hd3, hd4]

theorem c1_gap_wit_eval :
    fillGapMarker c1hundred c1hundred c1lookup (some [c1seg]) [] c1cfgOn "S"
      [(2, c1mA), (4, c1mB)] [2, 4] 15 3 = some c1m3 := by
  have hlk2 : lookupMarker [(2, c1mA), (4, c1mB)] 2 = some c1mA := rfl
  have hlk4 : lookupMarker [(2, c1mA), (4, c1mB)] 4 = some c1mB := rfl
  have hadj : adjustInferredTime 25 [] (some c1mA) (some c1mB) = 25 := rfl
  have hrA : c1mA.reciter = none := rfl
  have hrB : c1mB.reciter = none := rfl
  have hlook : c1lookup "S" 3 = some c1entry := rfl
  have hes : c1entry.surah_number = 5 := rfl
  have hjuz : get_juz_for_ayah 5 3 = 6 := rfl
  have hen : c1cfgOn.enforce_weak_support = true := rfl
  have hws : c1cfgOn.weak_support_score = 62 := rfl
  have hwo : c1cfgOn.weak_support_overlap = 8/100 := rfl
  norm_num [fillGapMarker, c1_branch_eval c1cfgOn rfl rfl rfl rfl, hadj, hlk2,
    hlk4, hrA, hrB, hlook, hes, hjuz, hen, hws, hwo, c1m3, c1_support_eval]

theorem c1_fill_wit_eval :
    fillSurahCoverageMarkers c1hundred c1hundred [c1mA, c1mB] c1lookup
      (some [c1seg]) [] c1cfgOn = [c1m3] := by
  have hmap : buildSurahMap [c1mA, c1mB] = [("S", [(2, c1mA), (4, c1mB)])] := rfl
  have hkl : ayahKeyLe (2, c1mA) (4, c1mB) := by norm_num [ayahKeyLe]
  have hrange : rangeInt 2 5 = [2, 3, 4] := by decide
  have hlk2 : lookupMarker [(2, c1mA), (4, c1mB)] 2 = some c1mA := rfl
  have hlk3 : lookupMarker [(2, c1mA), (4, c1mB)] 3 = none := rfl
  have hlk4 : lookupMarker [(2, c1mA), (4, c1mB)] 4 = some c1mB := rfl
  norm_num [fillSurahCoverageMarkers, hmap, hkl, hrange, c1_step_eval, hlk2,
    hlk3, hlk4, c1_gap_wit_eval, List.isEmpty_cons, List.filterMap_cons, List.filterMap_nil,
    List.cons_ne_nil]

theorem coverage_fill_requires_corpus_entry_witness :
    ∃ e, c1lookup c1m3.surah c1m3.ayah = some e :=
  coverage_fill_requires_corpus_entry c1hundred c1hundred [c1mA, c1mB]
    c1lookup [c1seg] [] c1cfgOn rfl c1m3
    (by rw [c1_fill_wit_eval]; exact List.mem_singleton.mpr rfl)


end Taraweeh
